import Mathlib

set_option maxRecDepth 100000

/-!
Shallow embedding of the battleship game server (`src/server.js`) and a
verification of its specification.

The server keeps, per room, a list of players (each with a board, a ship
list, and the sets of coordinates that player has fired at), plus a turn
pointer.  The socket handlers `placeShips`, `attack`, `joinGame`,
`setUsername` and `disconnecting` are translated below as pure functions on
a `Room` value; thrown JavaScript exceptions are modelled by an explicit
`crash` outcome, and callback errors by `Except.error` / an `err`
constructor carrying the message string from the source.

Conventions used throughout:
* JavaScript `Set`s of `"x:y:z"` coordinate keys are modelled as lists with
  membership tests; the key encoding is injective on the numbers that ever
  reach it, so set-of-key and list-of-coordinate membership agree.
* Attack target coordinates are arbitrary client-supplied numbers and are
  modelled as rationals (the handler performs no integer check on them);
  placement coordinates pass through `Number.isInteger`, so a submitted
  placement coordinate is modelled as `Option Int` (`none` for a value that
  is not an integer, e.g. `NaN` or `2.5`).
* The in-room chat log never touches boards, ships or the turn pointer, so
  it is not carried in the room state; the `chatMessage` handler is the
  identity on the modelled fields.
-/

namespace Battleship

/-- Constant `BOARD_SIZE` from `server.js`. -/
def BOARD_SIZE : Int := 5

/-- One entry of the `SHIPS` catalog in `server.js`. -/
structure CatalogShip where
  name : String
  length : Nat
deriving DecidableEq, Repr

/-- The `SHIPS` catalog from `server.js`. -/
def SHIPS : List CatalogShip :=
  [⟨"Carrier", 5⟩, ⟨"Battleship", 4⟩, ⟨"Cruiser", 3⟩, ⟨"Submarine", 3⟩, ⟨"Destroyer", 2⟩]

/-- A normalized integer board coordinate. -/
structure Cell where
  x : Int
  y : Int
  z : Int
deriving DecidableEq, Repr

/-- A submitted placement coordinate after the `Number(cell?.x)` conversion:
`some n` when the client value is the integer `n`, `none` when it is not an
integer (`NaN`, a fractional number, a missing field, ...); `Number.isInteger`
in the source rejects exactly the `none` components. -/
structure RawCell where
  x : Option Int
  y : Option Int
  z : Option Int
deriving DecidableEq, Repr

/-- A ship as submitted to `placeShips` (already shape-checked: the handler
rejects entries whose `name` is not a string or whose `cells` is not an
array before anything else, which the types here enforce). -/
structure RawShip where
  name : String
  cells : List RawCell
deriving DecidableEq, Repr

/-- A normalized ship as stored in `player.ships`. -/
structure Ship where
  name : String
  cells : List Cell
deriving DecidableEq, Repr

/-- Field `player.board`: the dense 5×5×5 array holding `null` or a ship name,
modelled as a function from coordinates to an optional name.  All writes are
at in-bounds integer coordinates. -/
def Board : Type := Cell → Option String

/-- Function `createEmptyBoard()`. -/
def emptyBoard : Board := fun _ => none

/-- Assignment `board[x][y][z] = name`. -/
def boardSet (b : Board) (c : Cell) (n : String) : Board :=
  fun d => if d = c then some n else b d

/-- The three coordinate axes, `['x', 'y', 'z']` in the source. -/
inductive Axis
  | X
  | Y
  | Z
deriving DecidableEq, Repr

/-- Lookup `cell[axis]`. -/
def Cell.get (c : Cell) : Axis → Int
  | .X => c.x
  | .Y => c.y
  | .Z => c.z

/-- The `axes` list from the placement validator. -/
def axes : List Axis := [.X, .Y, .Z]

/-! ### The placement validator (`placeShips` handler, validation phase) -/

/-- Normalization of one submitted cell: the integer check
(`Ship coordinates must be whole numbers.`) followed by the bounds check
(`Ship out of bounds`). -/
def normalizeCell (rc : RawCell) : Except String Cell :=
  match rc.x, rc.y, rc.z with
  | some x, some y, some z =>
    if x < 0 ∨ y < 0 ∨ z < 0 ∨ BOARD_SIZE ≤ x ∨ BOARD_SIZE ≤ y ∨ BOARD_SIZE ≤ z then
      .error "Ship out of bounds"
    else
      .ok ⟨x, y, z⟩
  | _, _, _ => .error "Ship coordinates must be whole numbers."

/-- Loop `ship.cells.map(...)` with a thrown error aborting at the first bad cell. -/
def normalizeCells : List RawCell → Except String (List Cell)
  | [] => .ok []
  | rc :: rest =>
    match normalizeCell rc with
    | .error e => .error e
    | .ok c =>
      match normalizeCells rest with
      | .error e => .error e
      | .ok cs => .ok (c :: cs)

/-- The list of values a ship occupies along one axis. -/
def axisVals (cells : List Cell) (a : Axis) : List Int :=
  cells.map (fun c => c.get a)

/-- Test `new Set(normalizedCells.map(cell => cell[axis])).size > 1`. -/
def variesOn (cells : List Cell) (a : Axis) : Bool :=
  decide ((axisVals cells a).dedup.length > 1)

/-- The consecutive-values loop: `sorted[i] === sorted[i-1] + 1` for all `i ≥ 1`. -/
def consecutive : List Int → Bool
  | [] => true
  | [_] => true
  | a :: b :: rest => decide (b = a + 1) && consecutive (b :: rest)

/-- The geometry block of the validator (straight line, consecutive cells,
single axis), applied to ships with more than one cell. -/
def checkGeometry (cells : List Cell) : Except String Unit :=
  if cells.length > 1 then
    match axes.filter (variesOn cells) with
    | [a] =>
      let sorted := (axisVals cells a).insertionSort (· ≤ ·)
      if consecutive sorted then
        if (axes.filter (fun b => b != a)).all
            (fun b => decide ((axisVals cells b).dedup.length = 1)) then
          .ok ()
        else
          .error "Ships must align to a single axis."
      else
        .error "Ships must occupy consecutive cells."
    | _ => .error "Ships must be placed in a straight line."
  else
    .ok ()

/-- The mutable validation state of one `placeShips` call: the local `board`,
`occupied` key set, `seenNames` set and `sanitizedShips` accumulator. -/
structure ValState where
  board : Board
  occupied : List Cell
  seenNames : List String
  sanitized : List Ship

/-- The initial validation state of a `placeShips` call. -/
def initVal : ValState := ⟨emptyBoard, [], [], []⟩

/-- Lookup `expectedShips.get(ship.name)` (the catalog is keyed by name). -/
def catalogLength (n : String) : Option Nat :=
  (SHIPS.find? (fun cat => cat.name == n)).map (fun cat => cat.length)

/-- The `normalizedCells.forEach` loop recording each cell in `occupied` and
painting it onto the local board (`Ships cannot overlap`). -/
def placeCells (n : String) : ValState → List Cell → Except String ValState
  | st, [] => .ok st
  | st, c :: rest =>
    if c ∈ st.occupied then
      .error "Ships cannot overlap"
    else
      placeCells n { st with occupied := c :: st.occupied, board := boardSet st.board c n } rest

/-- The body of `ships.forEach` in the validator: catalog lookup, duplicate
name check, length check, per-cell normalization, geometry, occupancy. -/
def processShip (st : ValState) (s : RawShip) : Except String ValState :=
  match catalogLength s.name with
  | none => .error "Unexpected ship provided."
  | some len =>
    if s.name ∈ st.seenNames then
      .error "Duplicate ship entries are not allowed."
    else if s.cells.length ≠ len then
      .error (s.name ++ " must occupy exactly " ++ toString len ++ " cells.")
    else
      match normalizeCells s.cells with
      | .error e => .error e
      | .ok cells =>
        match checkGeometry cells with
        | .error e => .error e
        | .ok _ =>
          match placeCells s.name st cells with
          | .error e => .error e
          | .ok st' =>
            .ok { st' with
                  sanitized := st'.sanitized ++ [⟨s.name, cells⟩],
                  seenNames := s.name :: st'.seenNames }

/-- The `ships.forEach(...)` loop over the whole submission. -/
def processShips : ValState → List RawShip → Except String ValState
  | st, [] => .ok st
  | st, s :: rest =>
    match processShip st s with
    | .error e => .error e
    | .ok st' => processShips st' rest

/-- The complete validation phase of `placeShips`: the count check
(`All ships must be placed before locking in.`) followed by the per-ship
loop. -/
def validateFleet (ships : List RawShip) : Except String ValState :=
  if ships.length ≠ SHIPS.length then
    .error "All ships must be placed before locking in."
  else
    processShips initVal ships

/-! ### Players, rooms, and the attack resolver -/

/-- An attack target as destructured from the request payload: three
client-supplied numbers, with no integrality guarantee. -/
def Target : Type := ℚ × ℚ × ℚ

instance : DecidableEq Target := by
  unfold Target
  infer_instance

/-- A player record as created by `createGame` / `joinGame`.  `hits` and
`misses` model the JavaScript `Set`s of `"x:y:z"` keys this player has fired
at (the key encoding is injective on the coordinates that reach it). -/
structure Player where
  id : String
  ready : Bool
  board : Board
  ships : List Ship
  hits : List Target
  misses : List Target
  username : Option String

/-- A room as stored in the `rooms` registry (chat log omitted: it never
touches the fields below). -/
structure Room where
  code : String
  players : List Player
  turn : Option String

/-- The fresh player pushed by `createGame` / `joinGame`. -/
def mkPlayer (sid : String) : Player :=
  ⟨sid, false, emptyBoard, [], [], [], none⟩

/-- The room built by the `createGame` handler. -/
def createRoom (code sid : String) : Room :=
  ⟨code, [mkPlayer sid], none⟩

/-- Function `getPlayer(room, socketId)`. -/
def getPlayer (room : Room) (sid : String) : Option Player :=
  room.players.find? (fun p => p.id == sid)

/-- Function `getOpponent(room, socketId)`: the second seat if the caller holds the
first, otherwise the first seat; `null` when the second seat is empty. -/
def getOpponent (room : Room) (sid : String) : Option Player :=
  match room.players with
  | pa :: pb :: _ => some (if pa.id = sid then pb else pa)
  | _ => none

/-- In-place mutation of the player object returned by `getPlayer`: rewrite
the first list entry whose id matches. -/
def updatePlayer : List Player → String → (Player → Player) → List Player
  | [], _, _ => []
  | p :: ps, sid, f =>
    if p.id = sid then f p :: ps else p :: updatePlayer ps sid f

/-- The integer coordinates of a stored cell, as they appear in an attack
coordinate key. -/
def cellT (c : Cell) : Target :=
  ((c.x : ℚ), (c.y : ℚ), (c.z : ℚ))

/-- Whether a client-supplied number is an integer (in which case indexing
the board array with it behaves like indexing with that integer). -/
def qInt (q : ℚ) : Bool := q.den == 1

/-- Result of evaluating `opponent.board[x][y][z]` under JavaScript array
semantics: a fractional `x` or `y` makes the middle lookup `undefined` and
the next indexing step throw; a fractional `z` merely yields `undefined`,
which the handler treats like an empty cell. -/
inductive JsLookup
  | threw
  | value (v : Option String)

/-- Lookup `opponent.board[x][y][z]` for in-window coordinates. -/
def boardLookup (b : Board) (x y z : ℚ) : JsLookup :=
  if qInt x && qInt y then
    if qInt z then .value (b ⟨x.num, y.num, z.num⟩)
    else .value none
  else .threw

/-- The outcome object broadcast and returned by the `attack` handler. -/
structure Payload where
  attacker : String
  target : Target
  result : String
  shipName : Option String
  nextTurn : Option String
  winner : Option String
deriving DecidableEq

/-- Result of one `attack` call: a reply with the updated room, a callback
error (room untouched), or a thrown exception (with the room as it stood at
the throw site). -/
inductive AttackOutcome
  | reply (payload : Payload) (room : Room)
  | err (msg : String)
  | crash (room : Room)

/-- Store updated hit/miss sets on the attacking player. -/
def recordShot (room : Room) (sid : String) (hits misses : List Target) : Room :=
  { room with
    players := updatePlayer room.players sid (fun p => { p with hits := hits, misses := misses }) }

/-- Test `opponent.ships.every(ship => ship.cells.every(c => player.hits.has(...)))`. -/
def allSunk (ships : List Ship) (hits : List Target) : Bool :=
  ships.all (fun s => s.cells.all (fun c => decide (cellT c ∈ hits)))

/-- The tail of the `attack` handler shared by the hit and miss branches:
win computation, payload construction, turn update. -/
def finishAttack (room : Room) (sid : String) (opp : Player)
    (hits misses : List Target) (result : String) (shipName : Option String)
    (t : Target) : AttackOutcome :=
  let win := allSunk opp.ships hits
  let payload : Payload :=
    ⟨sid, t, result, shipName,
      if win then none else some opp.id,
      if win then some sid else none⟩
  let room' :=
    { recordShot room sid hits misses with
      turn := if win then room.turn else some opp.id }
  .reply payload room'

/-- The `attack` handler body (after the registry has resolved the room). -/
def attack (room : Room) (sid : String) (t : Target) : AttackOutcome :=
  if room.turn ≠ some sid then .err "Not your turn."
  else
    match getOpponent room sid, getPlayer room sid with
    | some opp, some pl =>
      if t.1 < 0 ∨ t.2.1 < 0 ∨ t.2.2 < 0 ∨
          (5 : ℚ) ≤ t.1 ∨ (5 : ℚ) ≤ t.2.1 ∨ (5 : ℚ) ≤ t.2.2 then
        .err "Invalid target."
      else if t ∈ pl.hits ∨ t ∈ pl.misses then
        .err "Coordinate already targeted."
      else
        match boardLookup opp.board t.1 t.2.1 t.2.2 with
        | .threw => .crash room
        | .value none =>
          finishAttack room sid opp pl.hits (t :: pl.misses) "miss" none t
        | .value (some name) =>
          let hits' := t :: pl.hits
          match opp.ships.find? (fun s => s.name == name) with
          | none => .crash (recordShot room sid hits' pl.misses)
          | some ship =>
            let hitCount := (ship.cells.filter (fun c => decide (cellT c ∈ hits'))).length
            let result := if hitCount = ship.cells.length then "sunk" else "hit"
            finishAttack room sid opp hits' pl.misses result (some name) t
    | _, _ => .err "Opponent not found."

/-! ### The placeShips handler (commit phase) and the other room events -/

/-- Which notification the `placeShips` handler broadcasts after a
successful submission. -/
inductive PlaceEvent
  | gameStarted (turn : Option String)
  | playerReady
deriving DecidableEq, Repr

/-- The `placeShips` handler after the registry has resolved the room:
player lookup, validation, commit, and the game-start check
(`room.players.length === 2 && room.players.every(p => p.ready)`). -/
def placeShips (room : Room) (sid : String) (ships : List RawShip) :
    Except String (Room × PlaceEvent) :=
  match getPlayer room sid with
  | none => .error "Player not part of room."
  | some _ =>
    match validateFleet ships with
    | .error e => .error e
    | .ok st =>
      let room' : Room :=
        { room with
          players := updatePlayer room.players sid
            (fun p => { p with board := st.board, ships := st.sanitized, ready := true }) }
      if room'.players.length = 2 ∧ ∀ p ∈ room'.players, p.ready = true then
        match room'.players with
        | p0 :: _ =>
          .ok ({ room' with turn := some p0.id }, .gameStarted (some p0.id))
        | [] =>
          -- dead branch: the guard requires two seated players; JavaScript
          -- would throw on `room.players[0].id` here
          .ok (room', .playerReady)
      else
        .ok (room', .playerReady)

/-- The `joinGame` handler on the room it resolved: reject when full,
otherwise push a fresh player. -/
def joinRoom (room : Room) (sid : String) : Room :=
  if room.players.length ≥ 2 then room
  else { room with players := room.players ++ [mkPlayer sid] }

/-- The `setUsername` handler: trim, cap at 20 characters, store `null` for
an empty result. -/
def setUsername (room : Room) (sid : String) (username : String) : Room :=
  { room with
    players := updatePlayer room.players sid
      (fun p =>
        { p with
          username :=
            let limited := (username.trim.take 20)
            if limited = "" then none else some limited }) }

/-- The `disconnecting` handler for one room the leaving socket was in:
capture whether the leaver held the turn and who the opponent was, remove
the leaver (deleting the room if it empties), then reassign the turn. -/
def disconnect (room : Room) (sid : String) : Option Room :=
  let wasTurn := room.turn = some sid
  let opp := getOpponent room sid
  let remaining := room.players.filter (fun p => p.id != sid)
  if remaining.isEmpty then none
  else
    let r := { room with players := remaining }
    some
      (if wasTurn then
        { r with
          turn :=
            match opp with
            | some o => some o.id
            | none => (remaining.head?).map (fun p => p.id) }
      else r)

/-- A transport event addressed to one room. -/
inductive Event
  | join (sid : String)
  | setName (sid : String) (username : String)
  | place (sid : String) (ships : List RawShip)
  | fire (sid : String) (t : Target)
  | chat (sid : String)
  | leave (sid : String)

/-- The room an `attack` call leaves behind: the reply room on success, an
untouched room on a callback error, and the room as mutated so far on a
thrown exception. -/
def fireStep (room : Room) (sid : String) (t : Target) : Room :=
  match attack room sid t with
  | .reply _ r => r
  | .err _ => room
  | .crash r => r

/-- One event against one room; `none` means the room was deleted. -/
def step (room : Room) : Event → Option Room
  | .join sid => some (joinRoom room sid)
  | .setName sid u => some (setUsername room sid u)
  | .place sid ships =>
    some (match placeShips room sid ships with
          | .ok (r, _) => r
          | .error _ => room)
  | .fire sid t => some (fireStep room sid t)
  | .chat _ => some room
  | .leave sid => disconnect room sid

/-- The rooms reachable from `createGame` by any sequence of events. -/
inductive Reachable : Room → Prop
  | init (code sid : String) : Reachable (createRoom code sid)
  | step {r : Room} {e : Event} {r' : Room} :
      Reachable r → step r e = some r' → Reachable r'

/-! ### Specification-side predicates

The placement rules as worded in the specification (§4.2 / §8), for the
refinement statement of claim C3: the validator accepts iff the submission
has exactly one entry per catalog name, catalog lengths are respected, all
coordinates are whole numbers in `[0, 5)`, every multi-cell ship is a
straight contiguous run on exactly one axis, and no cell is claimed twice. -/

/-- The catalog names. -/
def catalogNames : List String := SHIPS.map (fun s => s.name)

/-- The integer value of a submitted coordinate triple (placeholder 0 for a
non-integer component; only used on cells that satisfy `specCellOk`). -/
def rawVal (rc : RawCell) : Cell :=
  ⟨rc.x.getD 0, rc.y.getD 0, rc.z.getD 0⟩

/-- Spec §4.2 step 3: every coordinate decodes to a whole number within
`[0, N)` on every axis. -/
def specCellOk (rc : RawCell) : Prop :=
  ∃ x y z : Int,
    rc = ⟨some x, some y, some z⟩ ∧
    0 ≤ x ∧ x < 5 ∧ 0 ≤ y ∧ y < 5 ∧ 0 ≤ z ∧ z < 5

/-- The contiguous integer run `m, m+1, …` of a given length. -/
def runFrom (m : Int) : Nat → List Int
  | 0 => []
  | n + 1 => m :: runFrom (m + 1) n

/-- An axis on which all of a ship's cells agree. -/
def constOn (cells : List Cell) (a : Axis) : Prop :=
  ∀ c ∈ cells, ∀ d ∈ cells, c.get a = d.get a

/-- Spec §4.2 step 4: for ships of more than one cell, exactly one axis
varies, the other two are constant, and the values along the varying axis
are (once sorted) a contiguous run with no gaps or repeats — i.e. they are
a permutation of `m, m+1, …` for some `m`. -/
def specGeom (cells : List Cell) : Prop :=
  cells.length > 1 →
    ∃ a : Axis,
      ¬ constOn cells a ∧
      (∀ b : Axis, b ≠ a → constOn cells b) ∧
      ∃ m : Int, (axisVals cells a).Perm (runFrom m cells.length)

/-- The integer cells of a submitted ship. -/
def shipCells (s : RawShip) : List Cell := s.cells.map rawVal

/-- The acceptance condition of §4.2 as worded in the specification. -/
def specFleetOk (ships : List RawShip) : Prop :=
  (∀ n ∈ catalogNames, (ships.map (fun s => s.name)).count n = 1) ∧
  (∀ s ∈ ships, s.name ∈ catalogNames) ∧
  (∀ s ∈ ships, ∃ cat ∈ SHIPS, cat.name = s.name ∧ s.cells.length = cat.length) ∧
  (∀ s ∈ ships, ∀ rc ∈ s.cells, specCellOk rc) ∧
  (∀ s ∈ ships, specGeom (shipCells s)) ∧
  List.Pairwise List.Disjoint (ships.map shipCells)

/-! ### Accessors used in theorem statements and witnesses -/

/-- Whether an `Except` result is a success. -/
def exceptOk : Except String α → Bool
  | .ok _ => true
  | .error _ => false

/-- The room a `placeShips` call leaves behind (the input room when the call
was rejected — rejection performs no mutation). -/
def placeRoomAfter (room : Room) (sid : String) (ships : List RawShip) : Room :=
  match placeShips room sid ships with
  | .ok (r, _) => r
  | .error _ => room

/-- The notification a successful `placeShips` call broadcasts. -/
def placeEventOf (room : Room) (sid : String) (ships : List RawShip) : Option PlaceEvent :=
  match placeShips room sid ships with
  | .ok (_, ev) => some ev
  | .error _ => none

/-- Whether an attack was accepted (callback received the outcome payload). -/
def isReply : AttackOutcome → Bool
  | .reply _ _ => true
  | _ => false

/-- The payload of an accepted attack. -/
def replyPayload : AttackOutcome → Option Payload
  | .reply p _ => some p
  | _ => none

/-- The room state an accepted attack leaves behind. -/
def roomAfter : AttackOutcome → Option Room
  | .reply _ r => some r
  | _ => none

/-- The turn pointer after an accepted attack. -/
def turnAfter (o : AttackOutcome) : Option (Option String) :=
  (roomAfter o).map (fun r => r.turn)

/-- The hit set of a given player after an accepted attack. -/
def hitsAfter (o : AttackOutcome) (sid : String) : Option (List Target) :=
  (roomAfter o).bind (fun r => (getPlayer r sid).map (fun p => p.hits))

/-- The miss set of a given player after an accepted attack. -/
def missesAfter (o : AttackOutcome) (sid : String) : Option (List Target) :=
  (roomAfter o).bind (fun r => (getPlayer r sid).map (fun p => p.misses))

/-- A stored player's board evaluated at one cell. -/
def boardAt (room : Room) (sid : String) (c : Cell) : Option (Option String) :=
  (getPlayer room sid).map (fun p => p.board c)

/-- A stored player's normalized ship list. -/
def shipsOf (room : Room) (sid : String) : Option (List Ship) :=
  (getPlayer room sid).map (fun p => p.ships)

/-- A stored player's ready flag. -/
def readyOf (room : Room) (sid : String) : Option Bool :=
  (getPlayer room sid).map (fun p => p.ready)

/-- The seated identities of a room. -/
def seatIds (room : Room) : List String :=
  room.players.map (fun p => p.id)

/-- The room invariant of claim C7: the turn pointer, when set, names a
seated player. -/
def turnSeated (room : Room) : Prop :=
  ∀ t, room.turn = some t → t ∈ seatIds room

/-- The well-formedness invariant maintained by every handler: the turn
names a seated player and at most two players are seated. -/
def roomWf (room : Room) : Prop :=
  turnSeated room ∧ room.players.length ≤ 2

/-! ### A concrete match, used by witnesses and counterexamples -/

/-- An integer attack target. -/
def targ (x y z : Int) : Target := ((x : ℚ), (y : ℚ), (z : ℚ))

/-- A well-formed submitted cell. -/
def rawCell (x y z : Int) : RawCell := ⟨some x, some y, some z⟩

/-- A ship of the given length lying along the x axis at row `y`, layer `z`. -/
def rawRow (name : String) (len : Nat) (y z : Int) : RawShip :=
  ⟨name, (List.range len).map (fun i => rawCell i y z)⟩

/-- The canonical fleet: every ship along x, one row per ship, layer 0. -/
def fleetA : List RawShip :=
  [rawRow "Carrier" 5 0 0, rawRow "Battleship" 4 1 0, rawRow "Cruiser" 3 2 0,
   rawRow "Submarine" 3 3 0, rawRow "Destroyer" 2 4 0]

/-- The same fleet moved to layer 1 (a second valid layout). -/
def fleetB : List RawShip :=
  [rawRow "Carrier" 5 0 1, rawRow "Battleship" 4 1 1, rawRow "Cruiser" 3 2 1,
   rawRow "Submarine" 3 3 1, rawRow "Destroyer" 2 4 1]

/-- A fleet whose Carrier is bent (the straight-line scenario of spec §8). -/
def fleetBent : List RawShip :=
  [⟨"Carrier", [rawCell 0 0 0, rawCell 0 1 0, rawCell 0 0 1, rawCell 0 2 0, rawCell 0 3 0]⟩,
   rawRow "Battleship" 4 1 0, rawRow "Cruiser" 3 2 0,
   rawRow "Submarine" 3 3 0, rawRow "Destroyer" 2 4 0]

/-- All 17 cells of the canonical fleet, in ship order. -/
def cellsA : List Cell := (fleetA.map shipCells).flatten

/-- Sixteen empty cells on layer 4, used as filler shots. -/
def fillerShots : List Cell :=
  (List.range 16).map (fun k => ⟨((k % 5 : Nat) : Int), ((k / 5 : Nat) : Int), 4⟩)

/-- Room `"123456"` freshly created by socket `"A"`. -/
def R0 : Room := createRoom "123456" "A"

/-- After socket `"B"` joins. -/
def R1 : Room := joinRoom R0 "B"

/-- After `"A"` locks in the canonical fleet. -/
def R2 : Room := placeRoomAfter R1 "A" fleetA

/-- After `"B"` locks in the canonical fleet too — the game starts with
`turn = "A"`. -/
def R3 : Room := placeRoomAfter R2 "B" fleetA

/-- Fold a list of events over a room (rejected events leave it unchanged). -/
def applyEvents (room : Room) (evs : List Event) : Room :=
  evs.foldl (fun r e => (step r e).getD r) room

/-- A full game from `R3`: `"A"` shoots the first 16 fleet cells on `"B"`'s
board, `"B"` answers each with a miss on layer 4. -/
def preWin : Room :=
  applyEvents R3
    ((List.zipWith
        (fun c m => [Event.fire "A" (cellT c), Event.fire "B" (cellT m)])
        cellsA fillerShots).flatten)

/-- The 17th and final fleet cell, the Destroyer's second cell. -/
def lastCell : Cell := ⟨1, 4, 0⟩

/-- The shot that sinks the last ship and declares the winner. -/
def wonOutcome : AttackOutcome := attack preWin "A" (cellT lastCell)

/-- The room as it stands after the winning shot. -/
def postWin : Room := (roomAfter wonOutcome).getD preWin

/-- The non-integer attack coordinate `x = 5/2`. -/
def half5 : ℚ := ⟨5, 2, by decide, by decide⟩

/-- The error of a rejected call, if any. -/
def errOf {α : Type} : Except String α → Option String
  | .error e => some e
  | .ok _ => none

/-- The message of a rejected attack, if any. -/
def errMsgOf : AttackOutcome → Option String
  | .err m => some m
  | _ => none

/-- Whether an attack threw a JavaScript exception. -/
def isCrash : AttackOutcome → Bool
  | .crash _ => true
  | _ => false

/-- The payload of the first shot of the concrete match (a Carrier hit). -/
def c4pay : Payload := ⟨"A", cellT ⟨0, 0, 0⟩, "hit", some "Carrier", some "B", none⟩

/-- The payload of the winning shot of the concrete match. -/
def wonPay : Payload := ⟨"A", cellT lastCell, "sunk", some "Destroyer", none, some "A"⟩

/-- The concrete match after one hit by `"A"` and one miss by `"B"`. -/
def R4 : Room :=
  applyEvents R3 [Event.fire "A" (cellT ⟨0, 0, 0⟩), Event.fire "B" (cellT ⟨0, 0, 1⟩)]

/-- Player `"A"`'s record in `R4`. -/
def pA4 : Player := (getPlayer R4 "A").getD (mkPlayer "A")

/-- Player `"A"`'s opponent in `R4`. -/
def pB4 : Player := (getOpponent R4 "A").getD (mkPlayer "B")

/-- Player `"A"`'s opponent in `R3`. -/
def pB3 : Player := (getOpponent R3 "A").getD (mkPlayer "B")

/-- The normalized ship list the validator stores for the canonical fleet. -/
def fleetShipsA : List Ship := fleetA.map (fun s => ⟨s.name, shipCells s⟩)

/-- Player `"A"`'s record in `R3`. -/
def pA3 : Player := (getPlayer R3 "A").getD (mkPlayer "A")

/-- The validation state produced by the layer-1 fleet. -/
def stB : ValState :=
  match validateFleet fleetB with
  | .ok st => st
  | .error _ => initVal

/-- A fleet naming `Carrier` twice (and no Battleship). -/
def fleetDupName : List RawShip :=
  [rawRow "Carrier" 5 0 0, rawRow "Carrier" 5 1 0, rawRow "Cruiser" 3 2 0,
   rawRow "Submarine" 3 3 0, rawRow "Destroyer" 2 4 0]

/-- A fleet containing a ship that is not in the catalog. -/
def fleetUnknown : List RawShip :=
  [rawRow "Carrier" 5 0 0, rawRow "Battleship" 4 1 0, rawRow "Cruiser" 3 2 0,
   rawRow "Submarine" 3 3 0, rawRow "Dinghy" 2 4 0]

/-- A fleet whose Carrier has only four cells. -/
def fleetShort : List RawShip :=
  [⟨"Carrier", [rawCell 0 0 0, rawCell 1 0 0, rawCell 2 0 0, rawCell 3 0 0]⟩,
   rawRow "Battleship" 4 1 0, rawRow "Cruiser" 3 2 0,
   rawRow "Submarine" 3 3 0, rawRow "Destroyer" 2 4 0]

/-- A fleet with a non-integer coordinate in the Carrier. -/
def fleetFrac : List RawShip :=
  [⟨"Carrier", [⟨none, some 0, some 0⟩, rawCell 1 0 0, rawCell 2 0 0,
                rawCell 3 0 0, rawCell 4 0 0]⟩,
   rawRow "Battleship" 4 1 0, rawRow "Cruiser" 3 2 0,
   rawRow "Submarine" 3 3 0, rawRow "Destroyer" 2 4 0]

/-- A fleet whose Carrier pokes out of the board at `x = 5`. -/
def fleetOob : List RawShip :=
  [⟨"Carrier", [rawCell 1 0 0, rawCell 2 0 0, rawCell 3 0 0, rawCell 4 0 0,
                rawCell 5 0 0]⟩,
   rawRow "Battleship" 4 1 0, rawRow "Cruiser" 3 2 0,
   rawRow "Submarine" 3 3 0, rawRow "Destroyer" 2 4 0]

/-- A fleet whose Battleship skips `x = 3`. -/
def fleetGap : List RawShip :=
  [rawRow "Carrier" 5 0 0,
   ⟨"Battleship", [rawCell 0 1 0, rawCell 1 1 0, rawCell 2 1 0, rawCell 4 1 0]⟩,
   rawRow "Cruiser" 3 2 0, rawRow "Submarine" 3 3 0, rawRow "Destroyer" 2 4 0]

/-- A fleet whose Battleship crosses the Carrier at the origin. -/
def fleetOverlap : List RawShip :=
  [rawRow "Carrier" 5 0 0,
   ⟨"Battleship", [rawCell 0 0 0, rawCell 0 1 0, rawCell 0 2 0, rawCell 0 3 0]⟩,
   rawRow "Cruiser" 3 2 0, rawRow "Submarine" 3 3 0, rawRow "Destroyer" 2 4 0]

/-- The per-ship part of the §4.2 acceptance condition: a catalog entry of
matching name and cell count, whole in-bounds coordinates, straight
contiguous geometry. -/
def shipOkP (s : RawShip) : Prop :=
  (∃ cat ∈ SHIPS, cat.name = s.name ∧ s.cells.length = cat.length) ∧
  (∀ rc ∈ s.cells, specCellOk rc) ∧
  specGeom (shipCells s)

/-- Consistency of one validation state: the board, occupancy set and
sanitized ship list describe each other, and every recorded ship respects
the catalog and the bounds (claim C10's invariant). -/
def ValInv (st : ValState) : Prop :=
  (∀ d n, st.board d = some n ↔ ∃ s ∈ st.sanitized, s.name = n ∧ d ∈ s.cells) ∧
  (∀ d, d ∈ st.occupied ↔ ∃ s ∈ st.sanitized, d ∈ s.cells) ∧
  (∀ s ∈ st.sanitized,
    (∃ cat ∈ SHIPS, cat.name = s.name ∧ s.cells.length = cat.length) ∧
    ∀ c ∈ s.cells, 0 ≤ c.x ∧ c.x < 5 ∧ 0 ≤ c.y ∧ c.y < 5 ∧ 0 ≤ c.z ∧ c.z < 5)

/-! ## Proofs -/

/-! ### The validator primitives -/

lemma exceptOk_iff {α : Type} {e : Except String α} : exceptOk e = true ↔ ∃ a, e = .ok a := by
  cases e <;> simp [exceptOk]

lemma normalizeCell_ok_iff {rc : RawCell} {c : Cell} :
    normalizeCell rc = .ok c ↔ specCellOk rc ∧ c = rawVal rc := by
  obtain ⟨ox, oy, oz⟩ := rc
  cases ox with
  | none => simp [normalizeCell, specCellOk]
  | some x =>
    cases oy with
    | none => simp [normalizeCell, specCellOk]
    | some y =>
      cases oz with
      | none => simp [normalizeCell, specCellOk]
      | some z =>
        simp only [normalizeCell, BOARD_SIZE]
        split_ifs with h
        · constructor
          · intro hc
            exact absurd hc (by simp)
          · rintro ⟨⟨x', y', z', heq, hb⟩, -⟩
            obtain ⟨hx, hy, hz⟩ : x = some x' ∧ y = some y' ∧ z = some z' := by
              simpa [RawCell.mk.injEq] using heq
            simp only [Option.some.injEq] at hx hy hz
            subst hx; subst hy; subst hz
            omega
        · push_neg at h
          constructor
          · intro hc
            obtain rfl : (⟨x, y, z⟩ : Cell) = c := by simpa using hc
            refine ⟨⟨x, y, z, rfl, ?_⟩, rfl⟩
            omega
          · rintro ⟨-, rfl⟩
            rfl

lemma normalizeCells_ok_iff {l : List RawCell} {cs : List Cell} :
    normalizeCells l = .ok cs ↔ (∀ rc ∈ l, specCellOk rc) ∧ cs = l.map rawVal := by
  induction l generalizing cs with
  | nil => simp [normalizeCells, eq_comm]
  | cons rc rest ih =>
    simp only [normalizeCells, List.map_cons, List.mem_cons, forall_eq_or_imp]
    cases hc : normalizeCell rc with
    | error e =>
      have hnot : ¬ specCellOk rc := fun hok => by
        have h2 : normalizeCell rc = .ok (rawVal rc) := normalizeCell_ok_iff.mpr ⟨hok, rfl⟩
        simp [hc] at h2
      simp [hnot]
    | ok c =>
      obtain ⟨hok, rfl⟩ := normalizeCell_ok_iff.mp hc
      cases hr : normalizeCells rest with
      | error e =>
        have hnot : ¬ (∀ x ∈ rest, specCellOk x) := fun hall => by
          simpa [hr] using ih.mpr ⟨hall, rfl⟩
        simp [hnot]
      | ok cs2 =>
        obtain ⟨hall, rfl⟩ := ih.mp hr
        show Except.ok (rawVal rc :: rest.map rawVal) = Except.ok cs ↔ _
        constructor
        · intro h
          injection h with h2
          subst h2
          exact ⟨⟨hok, hall⟩, rfl⟩
        · rintro ⟨-, rfl⟩
          rfl

lemma dedup_length_le_one_iff {l : List Int} :
    l.dedup.length ≤ 1 ↔ ∀ x ∈ l, ∀ y ∈ l, x = y := by
  cases h : l.dedup with
  | nil =>
    have : l = [] := (List.dedup_eq_nil l).mp h
    subst this
    simp
  | cons a t =>
    cases t with
    | nil =>
      simp only [List.length_singleton, le_refl, true_iff]
      intro x hx y hy
      have hxa : x = a := by
        have := (List.mem_dedup (a := x) (l := l)).mpr hx
        rw [h] at this
        simpa using this
      have hya : y = a := by
        have := (List.mem_dedup (a := y) (l := l)).mpr hy
        rw [h] at this
        simpa using this
      rw [hxa, hya]
    | cons b t2 =>
      simp only [List.length_cons, show ¬ t2.length + 1 + 1 ≤ 1 by omega, false_iff, not_forall]
      have hnd := l.nodup_dedup
      rw [h] at hnd
      have hab : a ≠ b := by
        rcases List.nodup_cons.mp hnd with ⟨hna, -⟩
        exact fun hh => hna (hh ▸ List.mem_cons_self b t2)
      have ha : a ∈ l := (List.mem_dedup).mp (by rw [h]; exact List.mem_cons_self a _)
      have hb : b ∈ l := (List.mem_dedup).mp (by rw [h]; simp)
      exact ⟨a, ha, b, hb, hab⟩

lemma variesOn_iff {cells : List Cell} {a : Axis} :
    variesOn cells a = true ↔ ¬ constOn cells a := by
  rw [variesOn, decide_eq_true_iff, constOn, gt_iff_lt, ← not_le, not_iff_not,
    dedup_length_le_one_iff]
  unfold axisVals
  constructor
  · intro h c hc d hd
    exact h _ (List.mem_map_of_mem _ hc) _ (List.mem_map_of_mem _ hd)
  · intro h x hx y hy
    obtain ⟨c, hc, rfl⟩ := List.mem_map.mp hx
    obtain ⟨d, hd, rfl⟩ := List.mem_map.mp hy
    exact h c hc d hd

lemma runFrom_length (m : Int) (n : Nat) : (runFrom m n).length = n := by
  induction n generalizing m with
  | zero => rfl
  | succ k ih => simp [runFrom, ih]

lemma mem_runFrom {x m : Int} {n : Nat} : x ∈ runFrom m n ↔ m ≤ x ∧ x < m + n := by
  induction n generalizing m with
  | zero =>
    constructor
    · intro h
      exact absurd h (List.not_mem_nil x)
    · intro h
      exfalso
      push_cast at h
      omega
  | succ k ih =>
    simp only [runFrom, List.mem_cons, ih]
    push_cast
    omega

lemma runFrom_nodup (m : Int) (n : Nat) : (runFrom m n).Nodup := by
  induction n generalizing m with
  | zero => simp [runFrom]
  | succ k ih =>
    rw [runFrom, List.nodup_cons]
    refine ⟨fun hmem => ?_, ih (m + 1)⟩
    have := mem_runFrom.mp hmem
    omega

lemma runFrom_sorted (m : Int) (n : Nat) : List.Sorted (· ≤ ·) (runFrom m n) := by
  induction n generalizing m with
  | zero => simp [runFrom]
  | succ k ih =>
    rw [runFrom, List.sorted_cons]
    refine ⟨fun b hb => ?_, ih (m + 1)⟩
    have := mem_runFrom.mp hb
    omega

lemma consecutive_runFrom (m : Int) (n : Nat) : consecutive (runFrom m n) = true := by
  induction n generalizing m with
  | zero => rfl
  | succ k ih =>
    cases k with
    | zero => rfl
    | succ k2 =>
      show consecutive (m :: (m + 1) :: runFrom (m + 1 + 1) k2) = true
      rw [consecutive]
      exact by simpa using ih (m + 1)

lemma runFrom_head {m a : Int} {n : Nat} {t : List Int}
    (h : a :: t = runFrom m n) : m = a := by
  cases n with
  | zero => simp [runFrom] at h
  | succ k =>
    rw [runFrom] at h
    injection h with h1 h2
    exact h1.symm

lemma consecutive_iff_runFrom {l : List Int} :
    consecutive l = true ↔ ∃ m, l = runFrom m l.length := by
  induction l with
  | nil => exact ⟨fun _ => ⟨0, rfl⟩, fun _ => rfl⟩
  | cons a t ih =>
    cases t with
    | nil => exact ⟨fun _ => ⟨a, rfl⟩, fun _ => rfl⟩
    | cons b t2 =>
      rw [consecutive, Bool.and_eq_true, decide_eq_true_iff, ih]
      simp only [List.length_cons]
      constructor
      · rintro ⟨hab, m, hm⟩
        have hmb : m = b := runFrom_head hm
        refine ⟨a, ?_⟩
        show a :: b :: t2 = runFrom a (t2.length + 1 + 1)
        rw [runFrom]
        congr 1
        rw [show (a + 1 : Int) = m from by omega]
        exact hm
      · rintro ⟨m, hm⟩
        have hma : m = a := runFrom_head hm
        subst hma
        rw [runFrom] at hm
        injection hm with h1 h2
        have hb : m + 1 = b := runFrom_head h2
        exact ⟨hb.symm, m + 1, h2⟩

lemma consecutive_sort_iff {l : List Int} :
    consecutive (l.insertionSort (· ≤ ·)) = true ↔ ∃ m, l.Perm (runFrom m l.length) := by
  constructor
  · intro h
    obtain ⟨m, hm⟩ := consecutive_iff_runFrom.mp h
    rw [(List.perm_insertionSort (· ≤ ·) l).length_eq] at hm
    refine ⟨m, ?_⟩
    exact hm ▸ (List.perm_insertionSort (· ≤ ·) l).symm
  · rintro ⟨m, hm⟩
    have hperm : (l.insertionSort (· ≤ ·)).Perm (runFrom m l.length) :=
      (List.perm_insertionSort (· ≤ ·) l).trans hm
    have heq : l.insertionSort (· ≤ ·) = runFrom m l.length :=
      List.eq_of_perm_of_sorted hperm (List.sorted_insertionSort (· ≤ ·) l)
        (runFrom_sorted m l.length)
    rw [heq]
    exact consecutive_runFrom m l.length

lemma axis_forall {P : Axis → Prop} : (∀ b : Axis, P b) ↔ P .X ∧ P .Y ∧ P .Z := by
  constructor
  · intro h
    exact ⟨h _, h _, h _⟩
  · rintro ⟨h1, h2, h3⟩ b
    cases b <;> assumption

lemma axes_filter_eq_single {p : Axis → Bool} {a : Axis} :
    axes.filter p = [a] ↔ p a = true ∧ ∀ b : Axis, b ≠ a → p b = false := by
  cases hX : p Axis.X <;> cases hY : p Axis.Y <;> cases hZ : p Axis.Z <;> cases a <;>
    simp [axes, List.filter_cons, axis_forall, hX, hY, hZ]

lemma variesOn_false_iff {cells : List Cell} {a : Axis} :
    variesOn cells a = false ↔ constOn cells a := by
  rw [← Bool.not_eq_true, variesOn_iff, not_not]

lemma axisVals_length {cells : List Cell} {a : Axis} :
    (axisVals cells a).length = cells.length := by
  simp [axisVals]

lemma constOn_dedup_length {cells : List Cell} (hne : cells ≠ []) {b : Axis}
    (h : constOn cells b) : (axisVals cells b).dedup.length = 1 := by
  have hle : (axisVals cells b).dedup.length ≤ 1 := by
    rw [dedup_length_le_one_iff]
    intro x hx y hy
    obtain ⟨c, hc, rfl⟩ := List.mem_map.mp hx
    obtain ⟨d, hd, rfl⟩ := List.mem_map.mp hy
    exact h c hc d hd
  have hpos : (axisVals cells b).dedup ≠ [] := by
    intro hd
    have : axisVals cells b = [] := (List.dedup_eq_nil _).mp hd
    have : cells = [] := by
      have := congrArg List.length this
      rw [axisVals_length] at this
      exact List.length_eq_zero.mp this
    exact hne this
  have := List.length_pos.mpr hpos
  omega

lemma specGeom_nodup {cells : List Cell} (h : specGeom cells) : cells.Nodup := by
  by_cases hlen : cells.length > 1
  · obtain ⟨a, -, -, m, hperm⟩ := h hlen
    exact List.Nodup.of_map _ (hperm.symm.nodup (runFrom_nodup m cells.length))
  · cases cells with
    | nil => exact List.nodup_nil
    | cons c t =>
      cases t with
      | nil => simp
      | cons c2 t2 =>
        exact absurd (by simp [List.length_cons]) hlen

lemma checkGeometry_ok_iff {cells : List Cell} :
    checkGeometry cells = .ok () ↔ specGeom cells := by
  by_cases hlen : cells.length > 1
  case neg =>
    rw [checkGeometry, if_neg hlen]
    simp [specGeom, hlen]
  case pos =>
    have hne : cells ≠ [] := by
      intro hh
      rw [hh] at hlen
      simp at hlen
    rw [checkGeometry, if_pos hlen]
    constructor
    · intro h
      cases hf : axes.filter (variesOn cells) with
      | nil =>
        rw [hf] at h
        exact Except.noConfusion h
      | cons a rest =>
        cases rest with
        | cons a2 rest2 =>
          rw [hf] at h
          exact Except.noConfusion h
        | nil =>
          rw [hf] at h
          dsimp only at h
          obtain ⟨hva, hvb⟩ := axes_filter_eq_single.mp hf
          intro _
          refine ⟨a, variesOn_iff.mp hva, fun b hb => variesOn_false_iff.mp (hvb b hb), ?_⟩
          by_cases hcons : consecutive ((axisVals cells a).insertionSort (· ≤ ·)) = true
          · obtain ⟨m, hm⟩ := consecutive_sort_iff.mp hcons
            rw [axisVals_length] at hm
            exact ⟨m, hm⟩
          · rw [if_neg hcons] at h
            exact Except.noConfusion h
    · intro hs
      obtain ⟨a, hva, hconst, m, hperm⟩ := hs hlen
      have hf : axes.filter (variesOn cells) = [a] :=
        axes_filter_eq_single.mpr
          ⟨variesOn_iff.mpr hva, fun b hb => variesOn_false_iff.mpr (hconst b hb)⟩
      rw [hf]
      dsimp only
      have hcons : consecutive ((axisVals cells a).insertionSort (· ≤ ·)) = true := by
        rw [consecutive_sort_iff, axisVals_length]
        exact ⟨m, hperm⟩
      rw [if_pos hcons]
      have hall : (axes.filter (fun b => b != a)).all
          (fun b => decide ((axisVals cells b).dedup.length = 1)) = true := by
        rw [List.all_eq_true]
        intro b hb
        have hbne : b ≠ a := by
          have := (List.mem_filter.mp hb).2
          simpa using this
        exact decide_eq_true (constOn_dedup_length hne (hconst b hbne))
      rw [if_pos hall]

/-! ### The occupancy loop and the catalog lookup -/

lemma placeCells_ok_spec {n : String} {cells : List Cell} :
    ∀ {st st' : ValState}, placeCells n st cells = .ok st' →
      st'.seenNames = st.seenNames ∧ st'.sanitized = st.sanitized ∧
      (∀ d, d ∈ st'.occupied ↔ d ∈ cells ∨ d ∈ st.occupied) ∧
      (∀ d, st'.board d = if d ∈ cells then some n else st.board d) := by
  induction cells with
  | nil =>
    intro st st' h
    injection h with h2
    subst h2
    exact ⟨rfl, rfl, fun d => by simp, fun d => by simp⟩
  | cons c rest ih =>
    intro st st' h
    rw [placeCells] at h
    by_cases hc : c ∈ st.occupied
    · rw [if_pos hc] at h
      exact Except.noConfusion h
    · rw [if_neg hc] at h
      obtain ⟨h1, h2, h3, h4⟩ := ih h
      refine ⟨h1, h2, fun d => ?_, fun d => ?_⟩
      · rw [h3 d]
        simp only [List.mem_cons]
        tauto
      · rw [h4 d]
        by_cases hdr : d ∈ rest <;> by_cases hdc : d = c <;>
          simp [boardSet, hdr, hdc, List.mem_cons]

lemma placeCells_ok_iff {n : String} {cells : List Cell} :
    ∀ {st : ValState}, (∃ st', placeCells n st cells = .ok st') ↔
      cells.Nodup ∧ ∀ c ∈ cells, c ∉ st.occupied := by
  induction cells with
  | nil =>
    intro st
    simp [placeCells]
  | cons c rest ih =>
    intro st
    by_cases hc : c ∈ st.occupied
    · simp only [placeCells, if_pos hc]
      constructor
      · rintro ⟨st', h⟩
        exact Except.noConfusion h
      · rintro ⟨-, hall⟩
        exact absurd hc (hall c (List.mem_cons_self c rest))
    · simp only [placeCells, if_neg hc]
      rw [ih]
      constructor
      · rintro ⟨hnd, hall⟩
        have hcr : c ∉ rest := fun hmem => by
          have := hall c hmem
          simp at this
        refine ⟨List.nodup_cons.mpr ⟨hcr, hnd⟩, ?_⟩
        intro x hx
        rcases List.mem_cons.mp hx with rfl | hxr
        · exact hc
        · have := hall x hxr
          simp only [List.mem_cons, not_or] at this
          exact this.2
      · rintro ⟨hnodup, hall⟩
        obtain ⟨hcr, hnd⟩ := List.nodup_cons.mp hnodup
        refine ⟨hnd, fun x hx => ?_⟩
        simp only [List.mem_cons, not_or]
        exact ⟨fun hxc => hcr (hxc ▸ hx), hall x (List.mem_cons_of_mem c hx)⟩

lemma find?_catalog {l : List CatalogShip} (hnd : (l.map (fun c => c.name)).Nodup)
    {n : String} {len : Nat} :
    (l.find? (fun cat => cat.name == n)).map (fun cat => cat.length) = some len ↔
      ∃ cat ∈ l, cat.name = n ∧ cat.length = len := by
  induction l with
  | nil => simp
  | cons c t ih =>
    rw [List.map_cons, List.nodup_cons] at hnd
    obtain ⟨hcn, hnd2⟩ := hnd
    by_cases hc : c.name = n
    · rw [List.find?_cons_of_pos _ (by simp [hc])]
      simp only [Option.map_some', Option.some.injEq]
      constructor
      · intro h
        exact ⟨c, List.mem_cons_self c t, hc, h⟩
      · rintro ⟨cat, hmem, hname, hlen⟩
        rcases List.mem_cons.mp hmem with rfl | hmt
        · exact hlen
        · exfalso
          apply hcn
          rw [hc, ← hname]
          exact List.mem_map_of_mem _ hmt
    · rw [List.find?_cons_of_neg _ (by simp [hc])]
      rw [ih hnd2]
      constructor
      · rintro ⟨cat, hm, hn2, hl⟩
        exact ⟨cat, List.mem_cons_of_mem c hm, hn2, hl⟩
      · rintro ⟨cat, hm, hn2, hl⟩
        rcases List.mem_cons.mp hm with rfl | hmt
        · exact absurd hn2 hc
        · exact ⟨cat, hmt, hn2, hl⟩

lemma catalogNames_nodup : catalogNames.Nodup := by decide

lemma catalogLength_eq_some_iff {n : String} {len : Nat} :
    catalogLength n = some len ↔ ∃ cat ∈ SHIPS, cat.name = n ∧ cat.length = len :=
  find?_catalog (by decide)

lemma catalog_entry_unique {cat cat2 : CatalogShip} (h1 : cat ∈ SHIPS) (h2 : cat2 ∈ SHIPS)
    (hn : cat.name = cat2.name) : cat = cat2 := by
  have := List.inj_on_of_nodup_map (f := fun c => c.name) (l := SHIPS) (by decide)
  exact this h1 h2 hn

/-! ### The per-ship validation pass -/

lemma processShip_ok_elim {st st' : ValState} {s : RawShip}
    (h : processShip st s = .ok st') :
    ∃ len cells pc,
      catalogLength s.name = some len ∧ s.name ∉ st.seenNames ∧
      s.cells.length = len ∧ normalizeCells s.cells = .ok cells ∧
      checkGeometry cells = .ok () ∧ placeCells s.name st cells = .ok pc ∧
      st' = { pc with sanitized := pc.sanitized ++ [⟨s.name, cells⟩],
                      seenNames := s.name :: pc.seenNames } := by
  rw [processShip] at h
  cases hcat : catalogLength s.name with
  | none =>
    rw [hcat] at h
    exact Except.noConfusion h
  | some len =>
    rw [hcat] at h
    dsimp only at h
    by_cases hseen : s.name ∈ st.seenNames
    · rw [if_pos hseen] at h
      exact Except.noConfusion h
    · rw [if_neg hseen] at h
      by_cases hlen : s.cells.length ≠ len
      · rw [if_pos hlen] at h
        exact Except.noConfusion h
      · rw [if_neg hlen] at h
        cases hnc : normalizeCells s.cells with
        | error e =>
          rw [hnc] at h
          exact Except.noConfusion h
        | ok cells =>
          rw [hnc] at h
          dsimp only at h
          cases hgeo : checkGeometry cells with
          | error e =>
            rw [hgeo] at h
            exact Except.noConfusion h
          | ok u =>
            cases u
            rw [hgeo] at h
            dsimp only at h
            cases hpc : placeCells s.name st cells with
            | error e =>
              rw [hpc] at h
              exact Except.noConfusion h
            | ok pc =>
              rw [hpc] at h
              dsimp only at h
              injection h with h2
              exact ⟨len, cells, pc, rfl, hseen, not_ne_iff.mp hlen, rfl, hgeo, hpc, h2.symm⟩

lemma processShip_ok_intro {st : ValState} {s : RawShip} {len : Nat}
    {cells : List Cell} {pc : ValState}
    (hcat : catalogLength s.name = some len) (hseen : s.name ∉ st.seenNames)
    (hlen : s.cells.length = len) (hnc : normalizeCells s.cells = .ok cells)
    (hgeo : checkGeometry cells = .ok ()) (hpc : placeCells s.name st cells = .ok pc) :
    processShip st s =
      .ok { pc with sanitized := pc.sanitized ++ [⟨s.name, cells⟩],
                    seenNames := s.name :: pc.seenNames } := by
  rw [processShip, hcat]
  dsimp only
  rw [if_neg hseen, if_neg (not_ne_iff.mpr hlen)]
  simp only [hnc, hgeo, hpc]

lemma processShip_ok_iff {st : ValState} {s : RawShip} :
    (∃ st', processShip st s = .ok st') ↔
      shipOkP s ∧ s.name ∉ st.seenNames ∧ ∀ c ∈ shipCells s, c ∉ st.occupied := by
  constructor
  · rintro ⟨st', h⟩
    obtain ⟨len, cells, pc, hcat, hseen, hlen, hnc, hgeo, hpc, rfl⟩ := processShip_ok_elim h
    obtain ⟨hall, rfl⟩ := normalizeCells_ok_iff.mp hnc
    have hgeo2 : specGeom (shipCells s) := checkGeometry_ok_iff.mp hgeo
    obtain ⟨cat, hcm, hcn, hclen⟩ := catalogLength_eq_some_iff.mp hcat
    have hdisj : ∀ c ∈ shipCells s, c ∉ st.occupied := by
      have := (placeCells_ok_iff (n := s.name)).mp ⟨pc, hpc⟩
      exact this.2
    exact ⟨⟨⟨cat, hcm, hcn, by rw [hlen, hclen]⟩, hall, hgeo2⟩, hseen, hdisj⟩
  · rintro ⟨⟨⟨cat, hcm, hcn, hclen⟩, hall, hgeom⟩, hseen, hocc⟩
    have hcat : catalogLength s.name = some cat.length :=
      catalogLength_eq_some_iff.mpr ⟨cat, hcm, hcn, rfl⟩
    have hnc : normalizeCells s.cells = .ok (shipCells s) :=
      normalizeCells_ok_iff.mpr ⟨hall, rfl⟩
    have hgeo : checkGeometry (shipCells s) = .ok () := checkGeometry_ok_iff.mpr hgeom
    have hnd : (shipCells s).Nodup := specGeom_nodup hgeom
    obtain ⟨pc, hpc⟩ := (placeCells_ok_iff (n := s.name)).mpr ⟨hnd, hocc⟩
    exact ⟨_, processShip_ok_intro hcat hseen hclen hnc hgeo hpc⟩

lemma processShip_ok_spec {st st' : ValState} {s : RawShip}
    (h : processShip st s = .ok st') :
    (∀ m, m ∈ st'.seenNames ↔ m = s.name ∨ m ∈ st.seenNames) ∧
    st'.sanitized = st.sanitized ++ [⟨s.name, shipCells s⟩] ∧
    (∀ d, d ∈ st'.occupied ↔ d ∈ shipCells s ∨ d ∈ st.occupied) ∧
    (∀ d, st'.board d = if d ∈ shipCells s then some s.name else st.board d) := by
  obtain ⟨len, cells, pc, hcat, hseen, hlen, hnc, hgeo, hpc, rfl⟩ := processShip_ok_elim h
  obtain ⟨hall, rfl⟩ := normalizeCells_ok_iff.mp hnc
  obtain ⟨hsn, hsa, hocc, hboard⟩ := placeCells_ok_spec hpc
  refine ⟨fun m => ?_, ?_, fun d => ?_, fun d => ?_⟩
  · show m ∈ s.name :: pc.seenNames ↔ _
    rw [List.mem_cons, hsn]
  · show pc.sanitized ++ _ = _
    rw [hsa]
    rfl
  · exact hocc d
  · exact hboard d

/-! ### The whole-fleet validation loop -/

lemma processShips_ok_iff {ships : List RawShip} :
    ∀ {st : ValState}, (∃ st', processShips st ships = .ok st') ↔
      (∀ s ∈ ships, shipOkP s) ∧ (ships.map (fun s => s.name)).Nodup ∧
      (∀ s ∈ ships, s.name ∉ st.seenNames) ∧
      ((ships.map shipCells).flatten).Nodup ∧
      (∀ c ∈ (ships.map shipCells).flatten, c ∉ st.occupied) := by
  induction ships with
  | nil =>
    intro st
    simp [processShips]
  | cons s rest ih =>
    intro st
    constructor
    · rintro ⟨st', h⟩
      rw [processShips] at h
      cases hps : processShip st s with
      | error e =>
        rw [hps] at h
        exact Except.noConfusion h
      | ok st1 =>
        rw [hps] at h
        dsimp only at h
        obtain ⟨hok, hseen, hdisj⟩ := processShip_ok_iff.mp ⟨st1, hps⟩
        obtain ⟨hsn, hsa, hocc, hboard⟩ := processShip_ok_spec hps
        obtain ⟨hallr, hndr, hfreshr, hcellsr, hoccr⟩ := ih.mp ⟨st', h⟩
        refine ⟨?_, ?_, ?_, ?_, ?_⟩
        · intro x hx
          rcases List.mem_cons.mp hx with rfl | hx2
          · exact hok
          · exact hallr x hx2
        · rw [List.map_cons, List.nodup_cons]
          refine ⟨fun hmem => ?_, hndr⟩
          obtain ⟨s2, hs2, hname⟩ := List.mem_map.mp hmem
          have hin : s2.name ∈ st1.seenNames := (hsn s2.name).mpr (Or.inl hname)
          exact hfreshr s2 hs2 hin
        · intro s2 hs2
          rcases List.mem_cons.mp hs2 with rfl | hs2r
          · exact hseen
          · have hnot := hfreshr s2 hs2r
            simp only [hsn, not_or] at hnot
            exact hnot.2
        · rw [List.map_cons, List.flatten_cons, List.nodup_append]
          refine ⟨specGeom_nodup hok.2.2, hcellsr, ?_⟩
          intro a ha har
          exact hoccr a har ((hocc a).mpr (Or.inl ha))
        · intro c hc
          rw [List.map_cons, List.flatten_cons, List.mem_append] at hc
          rcases hc with hc1 | hc2
          · exact hdisj c hc1
          · have hnot := hoccr c hc2
            simp only [hocc, not_or] at hnot
            exact hnot.2
    · rintro ⟨hall, hnd, hfresh, hcells, hocc2⟩
      have hok : shipOkP s := hall s (List.mem_cons_self s rest)
      have hfs : s.name ∉ st.seenNames := hfresh s (List.mem_cons_self s rest)
      have hdisj : ∀ c ∈ shipCells s, c ∉ st.occupied := fun c hc =>
        hocc2 c (by
          rw [List.map_cons, List.flatten_cons, List.mem_append]
          exact Or.inl hc)
      obtain ⟨st1, hps⟩ := processShip_ok_iff.mpr ⟨hok, hfs, hdisj⟩
      obtain ⟨hsn, hsa, hoccX, hboard⟩ := processShip_ok_spec hps
      rw [List.map_cons, List.nodup_cons] at hnd
      obtain ⟨hnm, hndr⟩ := hnd
      rw [List.map_cons, List.flatten_cons, List.nodup_append] at hcells
      obtain ⟨hnds, hndrest, hdisj2⟩ := hcells
      have hfresh1 : ∀ s2 ∈ rest, s2.name ∉ st1.seenNames := by
        intro s2 hs2
        simp only [hsn, not_or]
        refine ⟨fun heq => hnm ?_, hfresh s2 (List.mem_cons_of_mem s hs2)⟩
        rw [← heq]
        exact List.mem_map_of_mem _ hs2
      have hocc1 : ∀ c ∈ (rest.map shipCells).flatten, c ∉ st1.occupied := by
        intro c hc
        simp only [hoccX, not_or]
        refine ⟨fun hcs => hdisj2 hcs hc, ?_⟩
        refine hocc2 c ?_
        rw [List.map_cons, List.flatten_cons, List.mem_append]
        exact Or.inr hc
      obtain ⟨st', h⟩ := ih.mpr
        ⟨fun s2 h2 => hall s2 (List.mem_cons_of_mem s h2), hndr, hfresh1, hndrest, hocc1⟩
      refine ⟨st', ?_⟩
      rw [processShips, hps]
      exact h

lemma names_perm_of_counts {ships : List RawShip}
    (hcount : ∀ n ∈ catalogNames, (ships.map (fun s => s.name)).count n = 1)
    (hsub : ∀ s ∈ ships, s.name ∈ catalogNames) :
    (ships.map (fun s => s.name)).Perm catalogNames := by
  rw [List.perm_iff_count]
  intro a
  by_cases ha : a ∈ catalogNames
  · rw [hcount a ha, List.count_eq_one_of_mem catalogNames_nodup ha]
  · have h1 : (ships.map (fun s => s.name)).count a = 0 := by
      rw [List.count_eq_zero]
      intro hmem
      obtain ⟨s, hs, rfl⟩ := List.mem_map.mp hmem
      exact ha (hsub s hs)
    have h2 : catalogNames.count a = 0 := List.count_eq_zero.mpr ha
    rw [h1, h2]

lemma names_perm_of_nodup {ships : List RawShip}
    (hlen : ships.length = SHIPS.length)
    (hnd : (ships.map (fun s => s.name)).Nodup)
    (hsub : ∀ s ∈ ships, s.name ∈ catalogNames) :
    (ships.map (fun s => s.name)).Perm catalogNames := by
  have hsub2 : (ships.map (fun s => s.name)) ⊆ catalogNames := by
    intro a ha
    obtain ⟨s, hs, rfl⟩ := List.mem_map.mp ha
    exact hsub s hs
  have hsp := List.subperm_of_subset hnd hsub2
  refine hsp.perm_of_length_le ?_
  rw [List.length_map, hlen]
  exact Nat.le_of_eq (by rfl)

/-- C3: the placement validator accepts a submission iff it is exactly one
entry per catalog name, each of catalog length, all coordinates whole
numbers in `[0,5)`, each multi-cell ship straight and contiguous on exactly
one axis, and no cell claimed by two ships; and each individually violated
clause is rejected with its specific reason. -/
theorem placement_validator_correct :
    (∀ ships : List RawShip, exceptOk (validateFleet ships) = true ↔ specFleetOk ships) ∧
    errOf (validateFleet []) = some "All ships must be placed before locking in." ∧
    errOf (validateFleet fleetUnknown) = some "Unexpected ship provided." ∧
    errOf (validateFleet fleetDupName) = some "Duplicate ship entries are not allowed." ∧
    errOf (validateFleet fleetShort) = some "Carrier must occupy exactly 5 cells." ∧
    errOf (validateFleet fleetFrac) = some "Ship coordinates must be whole numbers." ∧
    errOf (validateFleet fleetOob) = some "Ship out of bounds" ∧
    errOf (validateFleet fleetBent) = some "Ships must be placed in a straight line." ∧
    errOf (validateFleet fleetGap) = some "Ships must occupy consecutive cells." ∧
    errOf (validateFleet fleetOverlap) = some "Ships cannot overlap" := by
  refine ⟨?_, rfl, rfl, rfl, rfl, rfl, rfl, rfl, rfl, rfl⟩
  intro ships
  rw [exceptOk_iff]
  constructor
  · rintro ⟨st, h⟩
    rw [validateFleet] at h
    by_cases hlen : ships.length ≠ SHIPS.length
    · rw [if_pos hlen] at h
      exact Except.noConfusion h
    · rw [if_neg hlen] at h
      have hlen2 := not_ne_iff.mp hlen
      obtain ⟨hall, hnd, -, hflat, -⟩ := processShips_ok_iff.mp ⟨st, h⟩
      have hsub : ∀ s ∈ ships, s.name ∈ catalogNames := by
        intro s hs
        obtain ⟨⟨cat, hm, hn, -⟩, -, -⟩ := hall s hs
        rw [catalogNames, ← hn]
        exact List.mem_map_of_mem _ hm
      have hperm := names_perm_of_nodup hlen2 hnd hsub
      refine ⟨?_, hsub, ?_, ?_, ?_, ?_⟩
      · intro n hn2
        rw [hperm.count_eq n, List.count_eq_one_of_mem catalogNames_nodup hn2]
      · exact fun s hs => (hall s hs).1
      · exact fun s hs => (hall s hs).2.1
      · exact fun s hs => (hall s hs).2.2
      · exact (List.nodup_flatten.mp hflat).2
  · rintro ⟨hcount, hsub, hcat, hcells, hgeom, hdisj⟩
    have hperm := names_perm_of_counts hcount hsub
    have hlen : ships.length = SHIPS.length := by
      have hl := hperm.length_eq
      rw [List.length_map] at hl
      rw [hl]
      rfl
    have hnd : (ships.map (fun s => s.name)).Nodup :=
      hperm.symm.nodup catalogNames_nodup
    have hallP : ∀ s ∈ ships, shipOkP s := fun s hs =>
      ⟨hcat s hs, hcells s hs, hgeom s hs⟩
    have hflat : ((ships.map shipCells).flatten).Nodup := by
      rw [List.nodup_flatten]
      refine ⟨?_, hdisj⟩
      intro l hl
      obtain ⟨s, hs, rfl⟩ := List.mem_map.mp hl
      exact specGeom_nodup (hgeom s hs)
    have hex : (∀ s ∈ ships, shipOkP s) ∧ (ships.map (fun s => s.name)).Nodup ∧
        (∀ s ∈ ships, s.name ∉ initVal.seenNames) ∧
        ((ships.map shipCells).flatten).Nodup ∧
        (∀ c ∈ (ships.map shipCells).flatten, c ∉ initVal.occupied) :=
      ⟨hallP, hnd, fun s _ => List.not_mem_nil s.name, hflat,
        fun c _ => List.not_mem_nil c⟩
    obtain ⟨st, h⟩ := processShips_ok_iff.mpr hex
    refine ⟨st, ?_⟩
    rw [validateFleet, if_neg (not_ne_iff.mpr hlen)]
    exact h

/-- C3 witness: the canonical fleet is accepted, hence satisfies the
specification predicate. -/
theorem placement_validator_correct_witness : specFleetOk fleetA :=
  (placement_validator_correct.1 fleetA).mp rfl

/-! ### The board/ship-list consistency invariant (claim C10) -/

lemma valInv_init : ValInv initVal := by
  refine ⟨fun d n => ?_, fun d => ?_, fun s hs => ?_⟩
  · simp [initVal, emptyBoard]
  · simp [initVal]
  · simp [initVal] at hs

lemma processShip_inv {st st' : ValState} {s : RawShip} (hinv : ValInv st)
    (h : processShip st s = .ok st') : ValInv st' := by
  obtain ⟨hb, ho, hs⟩ := hinv
  obtain ⟨hok, hseen, hdisj⟩ := processShip_ok_iff.mp ⟨st', h⟩
  obtain ⟨hsn, hsa, hocc, hboard⟩ := processShip_ok_spec h
  obtain ⟨hcat, hcells, hgeom⟩ := hok
  refine ⟨fun d n => ?_, fun d => ?_, fun s2 hs2 => ?_⟩
  · rw [hboard d]
    by_cases hd : d ∈ shipCells s
    · rw [if_pos hd]
      constructor
      · intro h2
        injection h2 with h3
        exact ⟨⟨s.name, shipCells s⟩, by rw [hsa]; simp, h3, hd⟩
      · rintro ⟨s3, hm3, hn3, hd3⟩
        rw [hsa, List.mem_append] at hm3
        rcases hm3 with hold | hnew
        · exact absurd ((ho d).mpr ⟨s3, hold, hd3⟩) (hdisj d hd)
        · simp only [List.mem_singleton] at hnew
          subst hnew
          rw [← hn3]
    · rw [if_neg hd, hb d n]
      constructor
      · rintro ⟨s3, hm3, hn3, hd3⟩
        exact ⟨s3, by rw [hsa]; exact List.mem_append_left _ hm3, hn3, hd3⟩
      · rintro ⟨s3, hm3, hn3, hd3⟩
        rw [hsa, List.mem_append] at hm3
        rcases hm3 with hold | hnew
        · exact ⟨s3, hold, hn3, hd3⟩
        · simp only [List.mem_singleton] at hnew
          subst hnew
          exact absurd hd3 hd
  · rw [hocc d, ho d]
    constructor
    · rintro (hd | ⟨s3, hm3, hd3⟩)
      · exact ⟨⟨s.name, shipCells s⟩, by rw [hsa]; simp, hd⟩
      · exact ⟨s3, by rw [hsa]; exact List.mem_append_left _ hm3, hd3⟩
    · rintro ⟨s3, hm3, hd3⟩
      rw [hsa, List.mem_append] at hm3
      rcases hm3 with hold | hnew
      · exact Or.inr ⟨s3, hold, hd3⟩
      · simp only [List.mem_singleton] at hnew
        subst hnew
        exact Or.inl hd3
  · rw [hsa, List.mem_append] at hs2
    rcases hs2 with hold | hnew
    · exact hs s2 hold
    · simp only [List.mem_singleton] at hnew
      subst hnew
      constructor
      · obtain ⟨cat, hm, hn, hl⟩ := hcat
        exact ⟨cat, hm, hn, by simpa [shipCells] using hl⟩
      · intro c hc
        obtain ⟨rc, hrc, rfl⟩ := List.mem_map.mp hc
        obtain ⟨x, y, z, heq, h1, h2, h3, h4, h5, h6⟩ := hcells rc hrc
        subst heq
        exact ⟨h1, h2, h3, h4, h5, h6⟩

lemma processShips_inv {ships : List RawShip} :
    ∀ {st st' : ValState}, ValInv st → processShips st ships = .ok st' → ValInv st' := by
  induction ships with
  | nil =>
    intro st st' hinv h
    injection h with h2
    exact h2 ▸ hinv
  | cons s rest ih =>
    intro st st' hinv h
    rw [processShips] at h
    cases hps : processShip st s with
    | error e =>
      rw [hps] at h
      exact Except.noConfusion h
    | ok st1 =>
      rw [hps] at h
      exact ih (processShip_inv hinv hps) h

lemma validateFleet_inv {ships : List RawShip} {st : ValState}
    (h : validateFleet ships = .ok st) : ValInv st := by
  rw [validateFleet] at h
  by_cases hlen : ships.length ≠ SHIPS.length
  · rw [if_pos hlen] at h
    exact Except.noConfusion h
  · rw [if_neg hlen] at h
    exact processShips_inv valInv_init h

/-! ### Player list updates -/

lemma updatePlayer_ids {ps : List Player} {sid : String} {f : Player → Player}
    (hf : ∀ p, (f p).id = p.id) :
    (updatePlayer ps sid f).map (fun p => p.id) = ps.map (fun p => p.id) := by
  induction ps with
  | nil => rfl
  | cons p t ih =>
    rw [updatePlayer]
    by_cases hp : p.id = sid
    · rw [if_pos hp]
      simp [hf]
    · rw [if_neg hp]
      simp only [List.map_cons, ih]

lemma updatePlayer_length {ps : List Player} {sid : String} {f : Player → Player} :
    (updatePlayer ps sid f).length = ps.length := by
  induction ps with
  | nil => rfl
  | cons p t ih =>
    rw [updatePlayer]
    by_cases hp : p.id = sid
    · rw [if_pos hp]
      rfl
    · rw [if_neg hp]
      simp only [List.length_cons, ih]

lemma find?_updatePlayer_self {ps : List Player} {sid : String} {f : Player → Player}
    (hf : ∀ p, (f p).id = p.id) :
    (updatePlayer ps sid f).find? (fun p => p.id == sid) =
      (ps.find? (fun p => p.id == sid)).map f := by
  induction ps with
  | nil => rfl
  | cons p t ih =>
    rw [updatePlayer]
    by_cases hp : p.id = sid
    · rw [if_pos hp, List.find?_cons_of_pos _ (by simp [hf, hp]),
        List.find?_cons_of_pos _ (by simp [hp])]
      rfl
    · rw [if_neg hp, List.find?_cons_of_neg _ (by simp [hp]),
        List.find?_cons_of_neg _ (by simp [hp])]
      exact ih

/-! ### The placeShips handler -/

lemma placeShips_ok_elim {room : Room} {sid : String} {ships : List RawShip}
    {room' : Room} {ev : PlaceEvent} (h : placeShips room sid ships = .ok (room', ev)) :
    ∃ p st,
      getPlayer room sid = some p ∧ validateFleet ships = .ok st ∧
      room'.players = updatePlayer room.players sid
        (fun q => { q with board := st.board, ships := st.sanitized, ready := true }) ∧
      room'.code = room.code ∧
      ((room'.players.length = 2 ∧ ∀ q ∈ room'.players, q.ready = true) →
        ∃ p0 rest, room'.players = p0 :: rest ∧ room'.turn = some p0.id ∧
          ev = .gameStarted (some p0.id)) ∧
      (¬ (room'.players.length = 2 ∧ ∀ q ∈ room'.players, q.ready = true) →
        room'.turn = room.turn ∧ ev = .playerReady) := by
  rw [placeShips] at h
  cases hp : getPlayer room sid with
  | none =>
    rw [hp] at h
    exact Except.noConfusion h
  | some p =>
    rw [hp] at h
    dsimp only at h
    cases hv : validateFleet ships with
    | error e =>
      rw [hv] at h
      exact Except.noConfusion h
    | ok st =>
      rw [hv] at h
      dsimp only at h
      refine ⟨p, st, rfl, rfl, ?_⟩
      split_ifs at h with hcond
      · cases hX : updatePlayer room.players sid
            (fun q => { q with board := st.board, ships := st.sanitized, ready := true }) with
        | nil =>
          rw [hX] at hcond
          simp at hcond
        | cons p0 rest =>
          rw [hX] at h
          dsimp only at h
          injection h with h1
          injection h1 with hr he
          subst hr
          subst he
          refine ⟨rfl, rfl, fun _ => ⟨p0, rest, rfl, rfl, rfl⟩, fun hn => ?_⟩
          rw [hX] at hcond
          exact absurd hcond hn
      · injection h with h1
        injection h1 with hr he
        subst hr
        subst he
        exact ⟨rfl, rfl, fun hc => absurd hc hcond, fun _ => ⟨rfl, rfl⟩⟩

lemma placeRoomAfter_eq {room : Room} {sid : String} {ships : List RawShip}
    {room' : Room} {ev : PlaceEvent} (h : placeShips room sid ships = .ok (room', ev)) :
    placeRoomAfter room sid ships = room' := by
  rw [placeRoomAfter, h]

lemma getPlayer_after_update {room : Room} {sid : String} {p : Player} {st : ValState}
    (hp : getPlayer room sid = some p) :
    (updatePlayer room.players sid
        (fun q => { q with board := st.board, ships := st.sanitized, ready := true })).find?
      (fun q => q.id == sid) =
      some { p with board := st.board, ships := st.sanitized, ready := true } := by
  rw [find?_updatePlayer_self
    (f := fun q => { q with board := st.board, ships := st.sanitized, ready := true })
    (fun q => rfl)]
  have h2 : room.players.find? (fun q => q.id == sid) = some p := hp
  rw [h2]
  rfl

/-- C8: every rejected `placeShips` submission leaves the room — in
particular the submitting player's board, ships and ready flag — exactly as
it was; rejection is atomic. -/
theorem placeShips_rejection_atomic (room : Room) (sid : String)
    (ships : List RawShip) (e : String)
    (h : placeShips room sid ships = .error e) :
    placeRoomAfter room sid ships = room ∧ placeEventOf room sid ships = none := by
  rw [placeRoomAfter, placeEventOf, h]
  exact ⟨rfl, rfl⟩

/-- C8 witness: the spec's non-colinear Carrier is rejected with the
straight-line reason and the room value is untouched. -/
theorem placeShips_rejection_atomic_witness :
    placeShips R1 "A" fleetBent = .error "Ships must be placed in a straight line." ∧
    placeRoomAfter R1 "A" fleetBent = R1 ∧ placeEventOf R1 "A" fleetBent = none :=
  ⟨rfl, (placeShips_rejection_atomic R1 "A" fleetBent _ rfl).1,
    (placeShips_rejection_atomic R1 "A" fleetBent _ rfl).2⟩

/-- C9: a successful placement starts the game exactly when both seated
players are then ready: the turn becomes the first seat's identity and a
start event is broadcast; otherwise the turn is untouched and the
peer-ready notice is broadcast instead. -/
theorem placeShips_start (room : Room) (sid : String) (ships : List RawShip)
    (room' : Room) (ev : PlaceEvent)
    (h : placeShips room sid ships = .ok (room', ev)) :
    ((room'.players.length = 2 ∧ ∀ q ∈ room'.players, q.ready = true) →
      room'.turn = (room'.players.head?).map (fun q => q.id) ∧
      ev = .gameStarted room'.turn) ∧
    (¬ (room'.players.length = 2 ∧ ∀ q ∈ room'.players, q.ready = true) →
      room'.turn = room.turn ∧ ev = .playerReady) := by
  obtain ⟨p, st, hp, hv, hpl, hcode, hstart, hnot⟩ := placeShips_ok_elim h
  refine ⟨fun hc => ?_, hnot⟩
  obtain ⟨p0, rest, hps, hturn, hev⟩ := hstart hc
  rw [hps, hturn, hev]
  exact ⟨rfl, rfl⟩

/-- C9 witness: `"B"` completing the canonical match starts the game with
the creator `"A"` holding the turn; a lone placement only broadcasts
readiness and leaves the turn unset. -/
theorem placeShips_start_witness :
    placeShips R2 "B" fleetA =
      .ok (placeRoomAfter R2 "B" fleetA, .gameStarted (some "A")) ∧
    ((placeRoomAfter R2 "B" fleetA).turn =
        ((placeRoomAfter R2 "B" fleetA).players.head?).map (fun q => q.id) ∧
      PlaceEvent.gameStarted (some "A") =
        .gameStarted (placeRoomAfter R2 "B" fleetA).turn) ∧
    placeShips R1 "A" fleetA =
      .ok (placeRoomAfter R1 "A" fleetA, .playerReady) ∧
    ((placeRoomAfter R1 "A" fleetA).turn = R1.turn ∧
      PlaceEvent.playerReady = PlaceEvent.playerReady) :=
  ⟨rfl,
   (placeShips_start R2 "B" fleetA _ _ rfl).1 (by decide),
   rfl,
   (placeShips_start R1 "A" fleetA _ _ rfl).2 (by decide)⟩

/-- C2 fails on the code: after the game has started in `R3`, a second
`placeShips` by the already-ready `"A"` is accepted, the stored board is
overwritten (cell `(0,0,0)` loses its Carrier), and — after an attack has
passed the turn to `"B"` — the resubmission resets the turn to `"A"`. -/
theorem resubmission_counterexample :
    readyOf R3 "A" = some true ∧
    exceptOk (placeShips R3 "A" fleetB) = true ∧
    boardAt R3 "A" ⟨0, 0, 0⟩ = some (some "Carrier") ∧
    boardAt (placeRoomAfter R3 "A" fleetB) "A" ⟨0, 0, 0⟩ = some none ∧
    (applyEvents R3 [Event.fire "A" (cellT ⟨0, 0, 0⟩)]).turn = some "B" ∧
    (placeRoomAfter (applyEvents R3 [Event.fire "A" (cellT ⟨0, 0, 0⟩)]) "A" fleetB).turn =
      some "A" :=
  ⟨rfl, rfl, rfl, rfl, rfl, rfl⟩

/-- C2 amended: `placeShips` never consults the ready flag — a member of the
room submitting a valid fleet is accepted even after having locked in (and
even mid-game), and the stored board and ships are overwritten with the new
normalized fleet while `ready` stays true. -/
theorem resubmission_overwrites (room : Room) (sid : String) (ships : List RawShip)
    (p : Player) (st : ValState)
    (hp : getPlayer room sid = some p) (hv : validateFleet ships = .ok st) :
    exceptOk (placeShips room sid ships) = true ∧
    (∀ c, boardAt (placeRoomAfter room sid ships) sid c = some (st.board c)) ∧
    shipsOf (placeRoomAfter room sid ships) sid = some st.sanitized ∧
    readyOf (placeRoomAfter room sid ships) sid = some true := by
  have hok : ∃ pr, placeShips room sid ships = .ok pr := by
    rw [placeShips, hp]
    dsimp only
    rw [hv]
    dsimp only
    split_ifs with hcond
    · cases hX : updatePlayer room.players sid
          (fun q => { q with board := st.board, ships := st.sanitized, ready := true }) with
      | nil => exact ⟨_, rfl⟩
      | cons p0 rest => exact ⟨_, rfl⟩
    · exact ⟨_, rfl⟩
  obtain ⟨⟨room2, ev⟩, heq⟩ := hok
  obtain ⟨p2, st2, hp2, hv2, hpl, -, -, -⟩ := placeShips_ok_elim heq
  rw [hv] at hv2
  injection hv2 with hst
  subst hst
  have hfind : getPlayer room2 sid =
      some { p with board := st.board, ships := st.sanitized, ready := true } := by
    rw [getPlayer, hpl]
    exact getPlayer_after_update hp
  rw [placeRoomAfter_eq heq]
  refine ⟨by rw [heq]; rfl, fun c => ?_, ?_, ?_⟩
  · rw [boardAt, hfind]
    rfl
  · rw [shipsOf, hfind]
    rfl
  · rw [readyOf, hfind]
    rfl

/-- C2 amended witness: the concrete resubmission in `R3`. -/
theorem resubmission_overwrites_witness :
    getPlayer R3 "A" = some pA3 ∧ validateFleet fleetB = .ok stB ∧
    exceptOk (placeShips R3 "A" fleetB) = true ∧
    boardAt (placeRoomAfter R3 "A" fleetB) "A" ⟨0, 0, 1⟩ = some (stB.board ⟨0, 0, 1⟩) ∧
    readyOf (placeRoomAfter R3 "A" fleetB) "A" = some true :=
  ⟨rfl, rfl, (resubmission_overwrites R3 "A" fleetB pA3 stB rfl rfl).1,
   (resubmission_overwrites R3 "A" fleetB pA3 stB rfl rfl).2.1 ⟨0, 0, 1⟩,
   (resubmission_overwrites R3 "A" fleetB pA3 stB rfl rfl).2.2.2⟩

/-- C10: after every successful `placeShips`, the stored board holds a name
at a cell iff that cell belongs to the stored ship of that name, all stored
cells are in bounds, and each stored ship's cell count matches its catalog
length. -/
theorem board_ships_consistent (room : Room) (sid : String) (ships : List RawShip)
    (h : exceptOk (placeShips room sid ships) = true) :
    ∀ ss, shipsOf (placeRoomAfter room sid ships) sid = some ss →
      (∀ c n, boardAt (placeRoomAfter room sid ships) sid c = some (some n) ↔
        ∃ s ∈ ss, s.name = n ∧ c ∈ s.cells) ∧
      (∀ s ∈ ss, ∀ c ∈ s.cells,
        0 ≤ c.x ∧ c.x < 5 ∧ 0 ≤ c.y ∧ c.y < 5 ∧ 0 ≤ c.z ∧ c.z < 5) ∧
      (∀ s ∈ ss, ∃ cat ∈ SHIPS, cat.name = s.name ∧ s.cells.length = cat.length) := by
  obtain ⟨⟨room2, ev⟩, heq⟩ := exceptOk_iff.mp h
  obtain ⟨p, st, hp, hv, hpl, -, -, -⟩ := placeShips_ok_elim heq
  obtain ⟨hb, ho, hs⟩ := validateFleet_inv hv
  have hfind : getPlayer room2 sid =
      some { p with board := st.board, ships := st.sanitized, ready := true } := by
    rw [getPlayer, hpl]
    exact getPlayer_after_update hp
  rw [placeRoomAfter_eq heq]
  intro ss hss
  rw [shipsOf, hfind] at hss
  injection hss with hss2
  have hss3 : ss = st.sanitized := hss2.symm
  subst hss3
  refine ⟨fun c n => ?_, fun s hms c hc => (hs s hms).2 c hc, fun s hms => (hs s hms).1⟩
  rw [boardAt, hfind]
  show some (st.board c) = some (some n) ↔ _
  constructor
  · intro h2
    injection h2 with h3
    exact (hb c n).mp h3
  · intro h2
    rw [(hb c n).mpr h2]

/-- C10 witness: the canonical fleet in a fresh room. -/
theorem board_ships_consistent_witness :
    exceptOk (placeShips R1 "A" fleetA) = true ∧
    shipsOf (placeRoomAfter R1 "A" fleetA) "A" = some fleetShipsA ∧
    (boardAt (placeRoomAfter R1 "A" fleetA) "A" ⟨0, 0, 0⟩ = some (some "Carrier") ↔
      ∃ s ∈ fleetShipsA, s.name = "Carrier" ∧ (⟨0, 0, 0⟩ : Cell) ∈ s.cells) :=
  ⟨rfl, rfl, (board_ships_consistent R1 "A" fleetA rfl fleetShipsA rfl).1 ⟨0, 0, 0⟩ "Carrier"⟩

/-! ### The attack handler -/

lemma allSunk_iff {ships : List Ship} {hits : List Target} :
    allSunk ships hits = true ↔ ∀ s ∈ ships, ∀ c ∈ s.cells, cellT c ∈ hits := by
  simp [allSunk, List.all_eq_true]

lemma getPlayer_recordShot {room : Room} {sid : String} {hits misses : List Target}
    {pl : Player} (hpl : getPlayer room sid = some pl) :
    getPlayer (recordShot room sid hits misses) sid =
      some { pl with hits := hits, misses := misses } := by
  rw [recordShot, getPlayer]
  dsimp only
  rw [find?_updatePlayer_self (f := fun q => { q with hits := hits, misses := misses })
    (fun q => rfl)]
  have h2 : room.players.find? (fun q => q.id == sid) = some pl := hpl
  rw [h2]
  rfl

lemma attack_reply_elim {room : Room} {sid : String} {t : Target} {p : Payload}
    {room' : Room} (h : attack room sid t = .reply p room') :
    ∃ opp pl,
      room.turn = some sid ∧ getOpponent room sid = some opp ∧
      getPlayer room sid = some pl ∧
      ∃ hits misses result shipName,
        p = ⟨sid, t, result, shipName,
              if allSunk opp.ships hits then none else some opp.id,
              if allSunk opp.ships hits then some sid else none⟩ ∧
        room' = { recordShot room sid hits misses with
                  turn := if allSunk opp.ships hits then room.turn else some opp.id } ∧
        ((∃ name ship,
            boardLookup opp.board t.1 t.2.1 t.2.2 = .value (some name) ∧
            opp.ships.find? (fun s => s.name == name) = some ship ∧
            hits = t :: pl.hits ∧ misses = pl.misses) ∨
         (boardLookup opp.board t.1 t.2.1 t.2.2 = .value none ∧
            hits = pl.hits ∧ misses = t :: pl.misses)) := by
  rw [attack] at h
  by_cases hturn : room.turn ≠ some sid
  · rw [if_pos hturn] at h
    exact AttackOutcome.noConfusion h
  · rw [if_neg hturn] at h
    have hturn2 : room.turn = some sid := not_ne_iff.mp hturn
    cases ho : getOpponent room sid with
    | none =>
      rw [ho] at h
      cases hpl : getPlayer room sid with
      | none =>
        rw [hpl] at h
        exact AttackOutcome.noConfusion h
      | some pl =>
        rw [hpl] at h
        exact AttackOutcome.noConfusion h
    | some opp =>
      rw [ho] at h
      cases hpl : getPlayer room sid with
      | none =>
        rw [hpl] at h
        exact AttackOutcome.noConfusion h
      | some pl =>
        rw [hpl] at h
        dsimp only at h
        by_cases hb : t.1 < 0 ∨ t.2.1 < 0 ∨ t.2.2 < 0 ∨
            (5 : ℚ) ≤ t.1 ∨ (5 : ℚ) ≤ t.2.1 ∨ (5 : ℚ) ≤ t.2.2
        · rw [if_pos hb] at h
          exact AttackOutcome.noConfusion h
        · rw [if_neg hb] at h
          by_cases hdup : t ∈ pl.hits ∨ t ∈ pl.misses
          · rw [if_pos hdup] at h
            exact AttackOutcome.noConfusion h
          · rw [if_neg hdup] at h
            cases hlk : boardLookup opp.board t.1 t.2.1 t.2.2 with
            | threw =>
              rw [hlk] at h
              exact AttackOutcome.noConfusion h
            | value v =>
              rw [hlk] at h
              cases v with
              | none =>
                rw [finishAttack] at h
                dsimp only at h
                injection h with h1 h2
                exact ⟨opp, pl, hturn2, rfl, rfl, pl.hits, t :: pl.misses, "miss", none,
                  h1.symm, h2.symm, Or.inr ⟨hlk, rfl, rfl⟩⟩
              | some name =>
                dsimp only at h
                cases hfind : opp.ships.find? (fun s => s.name == name) with
                | none =>
                  rw [hfind] at h
                  exact AttackOutcome.noConfusion h
                | some ship =>
                  rw [hfind] at h
                  dsimp only at h
                  rw [finishAttack] at h
                  dsimp only at h
                  injection h with h1 h2
                  exact ⟨opp, pl, hturn2, rfl, rfl, t :: pl.hits, pl.misses, _, some name,
                    h1.symm, h2.symm, Or.inl ⟨name, ship, hlk, hfind, rfl, rfl⟩⟩

lemma attack_crash_elim {room : Room} {sid : String} {t : Target} {r : Room}
    (h : attack room sid t = .crash r) :
    r = room ∨ ∃ pl hits, getPlayer room sid = some pl ∧
      r = recordShot room sid hits pl.misses := by
  rw [attack] at h
  by_cases hturn : room.turn ≠ some sid
  · rw [if_pos hturn] at h
    exact AttackOutcome.noConfusion h
  · rw [if_neg hturn] at h
    cases ho : getOpponent room sid with
    | none =>
      rw [ho] at h
      cases hpl : getPlayer room sid with
      | none =>
        rw [hpl] at h
        exact AttackOutcome.noConfusion h
      | some pl =>
        rw [hpl] at h
        exact AttackOutcome.noConfusion h
    | some opp =>
      rw [ho] at h
      cases hpl : getPlayer room sid with
      | none =>
        rw [hpl] at h
        exact AttackOutcome.noConfusion h
      | some pl =>
        rw [hpl] at h
        dsimp only at h
        by_cases hb : t.1 < 0 ∨ t.2.1 < 0 ∨ t.2.2 < 0 ∨
            (5 : ℚ) ≤ t.1 ∨ (5 : ℚ) ≤ t.2.1 ∨ (5 : ℚ) ≤ t.2.2
        · rw [if_pos hb] at h
          exact AttackOutcome.noConfusion h
        · rw [if_neg hb] at h
          by_cases hdup : t ∈ pl.hits ∨ t ∈ pl.misses
          · rw [if_pos hdup] at h
            exact AttackOutcome.noConfusion h
          · rw [if_neg hdup] at h
            cases hlk : boardLookup opp.board t.1 t.2.1 t.2.2 with
            | threw =>
              rw [hlk] at h
              injection h with h1
              exact Or.inl h1.symm
            | value v =>
              rw [hlk] at h
              cases v with
              | none =>
                rw [finishAttack] at h
                dsimp only at h
                exact AttackOutcome.noConfusion h
              | some name =>
                dsimp only at h
                cases hfind : opp.ships.find? (fun s => s.name == name) with
                | none =>
                  rw [hfind] at h
                  injection h with h1
                  exact Or.inr ⟨pl, t :: pl.hits, rfl, h1.symm⟩
                | some ship =>
                  rw [hfind] at h
                  dsimp only at h
                  rw [finishAttack] at h
                  dsimp only at h
                  exact AttackOutcome.noConfusion h

/-- C4: an accepted attack declares the attacker winner exactly when, after
the shot is recorded, every cell of every opponent ship lies in the
attacker's hit set; then `nextTurn` is cleared, and otherwise both the
payload and the room hand the turn to the opponent. -/
theorem attack_win_iff (room : Room) (sid : String) (t : Target) (p : Payload)
    (ss : List Ship) (oppid : String) (hl : List Target)
    (hp : replyPayload (attack room sid t) = some p)
    (hss : (getOpponent room sid).map (fun q => q.ships) = some ss)
    (hid : (getOpponent room sid).map (fun q => q.id) = some oppid)
    (hhl : hitsAfter (attack room sid t) sid = some hl) :
    (p.winner = some sid ↔ ∀ s ∈ ss, ∀ c ∈ s.cells, cellT c ∈ hl) ∧
    (p.winner = none → p.nextTurn = some oppid ∧
      turnAfter (attack room sid t) = some (some oppid)) ∧
    (p.winner = some sid → p.nextTurn = none) ∧
    (p.winner = none ∨ p.winner = some sid) := by
  cases ha : attack room sid t with
  | err m =>
    rw [ha] at hp
    exact Option.noConfusion hp
  | crash r =>
    rw [ha] at hp
    exact Option.noConfusion hp
  | reply p2 room2 =>
    rw [ha] at hp hhl
    injection hp with hp2
    subst hp2
    obtain ⟨opp, pl, hturn, ho, hpl, hits, misses, result, shipName, hpay, hroom, -⟩ :=
      attack_reply_elim ha
    rw [ho] at hss hid
    injection hss with hss2
    injection hid with hid2
    subst hss2
    subst hid2
    have hfind : getPlayer room2 sid = some { pl with hits := hits, misses := misses } := by
      rw [hroom]
      exact getPlayer_recordShot hpl
    have hhl2 : (getPlayer room2 sid).map (fun q => q.hits) = some hl := hhl
    rw [hfind] at hhl2
    injection hhl2 with hhl3
    have hhl4 : hits = hl := hhl3
    subst hhl4
    subst hpay
    by_cases hsunk : allSunk opp.ships hits = true
    · refine ⟨?_, ?_, ?_, ?_⟩
      · dsimp only
        rw [if_pos hsunk]
        exact iff_of_true rfl (allSunk_iff.mp hsunk)
      · dsimp only
        rw [if_pos hsunk, if_pos hsunk]
        intro habs
        exact absurd habs (by simp)
      · dsimp only
        rw [if_pos hsunk, if_pos hsunk]
        intro _
        rfl
      · dsimp only
        rw [if_pos hsunk]
        exact Or.inr rfl
    · refine ⟨?_, ?_, ?_, ?_⟩
      · dsimp only
        rw [if_neg hsunk]
        exact iff_of_false (by simp) (fun hc => hsunk (allSunk_iff.mpr hc))
      · dsimp only
        rw [if_neg hsunk, if_neg hsunk]
        intro _
        refine ⟨rfl, ?_⟩
        show some room2.turn = some (some opp.id)
        rw [hroom]
        dsimp only
        rw [if_neg hsunk]
      · dsimp only
        rw [if_neg hsunk, if_neg hsunk]
        intro habs
        exact absurd habs (by simp)
      · dsimp only
        rw [if_neg hsunk]
        exact Or.inl rfl

/-- C4 witness: the first shot of the concrete match is a Carrier hit with
no winner, so the turn passes to the opponent. -/
theorem attack_win_iff_witness :
    replyPayload (attack R3 "A" (cellT ⟨0, 0, 0⟩)) = some c4pay ∧
    hitsAfter (attack R3 "A" (cellT ⟨0, 0, 0⟩)) "A" = some [cellT ⟨0, 0, 0⟩] ∧
    c4pay.nextTurn = some "B" ∧
    turnAfter (attack R3 "A" (cellT ⟨0, 0, 0⟩)) = some (some "B") :=
  ⟨rfl, rfl,
   ((attack_win_iff R3 "A" (cellT ⟨0, 0, 0⟩) c4pay fleetShipsA "B" [cellT ⟨0, 0, 0⟩]
      rfl rfl rfl rfl).2.1 rfl).1,
   ((attack_win_iff R3 "A" (cellT ⟨0, 0, 0⟩) c4pay fleetShipsA "B" [cellT ⟨0, 0, 0⟩]
      rfl rfl rfl rfl).2.1 rfl).2⟩

/-- C6: once an attack reaches the duplicate check (the room resolved, the
attacker holds the turn, an opponent is seated, and the target is inside the
bounds window), a coordinate already present in the attacker's own hits or
misses is rejected with the already-targeted error and the room state is
unchanged. -/
theorem attack_already_targeted (room : Room) (sid : String) (t : Target)
    (opp pl : Player)
    (hturn : room.turn = some sid)
    (hopp : getOpponent room sid = some opp)
    (hpl : getPlayer room sid = some pl)
    (hb : ¬ (t.1 < 0 ∨ t.2.1 < 0 ∨ t.2.2 < 0 ∨
      (5 : ℚ) ≤ t.1 ∨ (5 : ℚ) ≤ t.2.1 ∨ (5 : ℚ) ≤ t.2.2))
    (hdup : t ∈ pl.hits ∨ t ∈ pl.misses) :
    attack room sid t = .err "Coordinate already targeted." ∧
    fireStep room sid t = room := by
  have ha : attack room sid t = .err "Coordinate already targeted." := by
    rw [attack, if_neg (not_ne_iff.mpr hturn), hopp, hpl]
    dsimp only
    rw [if_neg hb, if_pos hdup]
  refine ⟨ha, ?_⟩
  rw [fireStep, ha]

/-- C6 witness: in the concrete match, `"A"` refiring at the already hit
`(0,0,0)` is rejected and the room is untouched. -/
theorem attack_already_targeted_witness :
    R4.turn = some "A" ∧ cellT ⟨0, 0, 0⟩ ∈ pA4.hits ∧
    attack R4 "A" (cellT ⟨0, 0, 0⟩) = .err "Coordinate already targeted." ∧
    fireStep R4 "A" (cellT ⟨0, 0, 0⟩) = R4 :=
  ⟨rfl, by decide,
   (attack_already_targeted R4 "A" (cellT ⟨0, 0, 0⟩) pB4 pA4 rfl rfl rfl
     (by decide) (Or.inl (by decide))).1,
   (attack_already_targeted R4 "A" (cellT ⟨0, 0, 0⟩) pB4 pA4 rfl rfl rfl
     (by decide) (Or.inl (by decide))).2⟩

/-- C5 (code bug): integer coordinates outside the window are rejected with
the invalid-target error, but a fractional `x` passes the bounds check and
the handler throws a TypeError at the board lookup, while a fractional `z`
is silently accepted and recorded as a miss — neither yields the
out-of-bounds error with unchanged state that the spec requires. -/
theorem attack_bounds_behavior :
    errMsgOf (attack R3 "A" (targ (-1) 0 0)) = some "Invalid target." ∧
    errMsgOf (attack R3 "A" (targ 0 5 0)) = some "Invalid target." ∧
    isCrash (attack R3 "A" (half5, 0, 0)) = true ∧
    isReply (attack R3 "A" ((0 : ℚ), (0 : ℚ), half5)) = true ∧
    (replyPayload (attack R3 "A" ((0 : ℚ), (0 : ℚ), half5))).map (fun q => q.result) =
      some "miss" ∧
    missesAfter (attack R3 "A" ((0 : ℚ), (0 : ℚ), half5)) "A" =
      some [((0 : ℚ), (0 : ℚ), half5)] :=
  ⟨rfl, rfl, rfl, rfl, rfl, rfl⟩

/-- C1 fails on the code: the winning shot declares `winner = "A"` but the
room keeps `turn = "A"` with no terminal state, so `"A"`'s next attack at a
fresh coordinate is accepted (mutating the miss set and re-declaring the
win) rather than rejected. -/
theorem win_not_final_counterexample :
    (replyPayload wonOutcome).map (fun q => q.winner) = some (some "A") ∧
    roomAfter wonOutcome = some postWin ∧
    isReply (attack postWin "A" (targ 4 4 4)) = true ∧
    (getPlayer postWin "A").map (fun q => q.misses.length) = some 0 ∧
    missesAfter (attack postWin "A" (targ 4 4 4)) "A" = some [targ 4 4 4] ∧
    (replyPayload (attack postWin "A" (targ 4 4 4))).map (fun q => q.winner) =
      some (some "A") :=
  ⟨rfl, rfl, rfl, rfl, rfl, rfl⟩

/-- C1 amended: after an attack declares a winner the turn is left with the
winner, so any subsequent attack by a different player is rejected with the
not-your-turn error; the winner's own further attacks are not blocked. -/
theorem win_keeps_turn (room : Room) (sid : String) (t : Target) (p : Payload)
    (room' : Room) (hr : attack room sid t = .reply p room')
    (hw : p.winner = some sid) :
    room'.turn = some sid ∧
    ∀ sid2 t2, sid2 ≠ sid → attack room' sid2 t2 = .err "Not your turn." := by
  obtain ⟨opp, pl, hturn, ho, hpl, hits, misses, result, shipName, hpay, hroom, -⟩ :=
    attack_reply_elim hr
  subst hpay
  by_cases hsunk : allSunk opp.ships hits = true
  · have hturn2 : room'.turn = some sid := by
      rw [hroom]
      dsimp only
      rw [if_pos hsunk]
      exact hturn
    refine ⟨hturn2, fun sid2 t2 hne => ?_⟩
    rw [attack, if_pos ?_]
    rw [hturn2]
    intro hh
    injection hh with hh2
    exact hne hh2.symm
  · exfalso
    dsimp only at hw
    rw [if_neg hsunk] at hw
    exact Option.noConfusion hw

/-- C1 amended witness: after the winning shot in the concrete match, the
turn is still `"A"`'s and `"B"` is rejected with the not-your-turn error. -/
theorem win_keeps_turn_witness :
    attack preWin "A" (cellT lastCell) = .reply wonPay postWin ∧
    wonPay.winner = some "A" ∧ postWin.turn = some "A" ∧
    attack postWin "B" (targ 0 0 1) = .err "Not your turn." :=
  ⟨rfl, rfl,
   (win_keeps_turn preWin "A" (cellT lastCell) wonPay postWin rfl rfl).1,
   (win_keeps_turn preWin "A" (cellT lastCell) wonPay postWin rfl rfl).2 "B"
     (targ 0 0 1) (by decide)⟩

/-! ### The turn invariant (claim C7) -/

lemma getOpponent_mem {room : Room} {sid : String} {opp : Player}
    (h : getOpponent room sid = some opp) : opp ∈ room.players := by
  rw [getOpponent] at h
  cases hps : room.players with
  | nil =>
    rw [hps] at h
    exact Option.noConfusion h
  | cons pa t =>
    cases t with
    | nil =>
      rw [hps] at h
      exact Option.noConfusion h
    | cons pb t2 =>
      rw [hps] at h
      injection h with h2
      by_cases hpa : pa.id = sid
      · rw [if_pos hpa] at h2
        subst h2
        exact List.mem_cons_of_mem _ (List.mem_cons_self _ _)
      · rw [if_neg hpa] at h2
        subst h2
        exact List.mem_cons_self _ _

lemma roomWf_of_same {room r : Room} (hwf : roomWf room)
    (hturn : r.turn = room.turn) (hids : seatIds r = seatIds room) : roomWf r := by
  constructor
  · intro tt htt
    rw [hturn] at htt
    rw [hids]
    exact hwf.1 tt htt
  · have hlen : r.players.length = room.players.length := by
      have h2 := congrArg List.length hids
      simpa [seatIds] using h2
    rw [hlen]
    exact hwf.2

lemma seatIds_update {room : Room} {sid : String} {f : Player → Player}
    (hf : ∀ p, (f p).id = p.id) :
    seatIds { room with players := updatePlayer room.players sid f } = seatIds room := by
  show (updatePlayer room.players sid f).map (fun p => p.id) = _
  exact updatePlayer_ids hf

lemma roomWf_join {room : Room} {sid : String} (hwf : roomWf room) :
    roomWf (joinRoom room sid) := by
  rw [joinRoom]
  by_cases hfull : room.players.length ≥ 2
  · rw [if_pos hfull]
    exact hwf
  · rw [if_neg hfull]
    constructor
    · intro tt htt
      have hmem := hwf.1 tt htt
      show tt ∈ (room.players ++ [mkPlayer sid]).map (fun p => p.id)
      rw [List.map_append]
      exact List.mem_append_left _ hmem
    · show (room.players ++ [mkPlayer sid]).length ≤ 2
      rw [List.length_append]
      simp only [List.length_singleton]
      omega

lemma roomWf_setName {room : Room} {sid u : String} (hwf : roomWf room) :
    roomWf (setUsername room sid u) :=
  roomWf_of_same hwf rfl (seatIds_update (fun _ => rfl))

lemma roomWf_place {room : Room} {sid : String} {ships : List RawShip}
    (hwf : roomWf room) : roomWf (placeRoomAfter room sid ships) := by
  cases heq : placeShips room sid ships with
  | error e =>
    rw [placeRoomAfter, heq]
    exact hwf
  | ok pr =>
    obtain ⟨room2, ev⟩ := pr
    rw [placeRoomAfter_eq heq]
    obtain ⟨p, st, hp, hv, hpl, hcode, hstart, hnot⟩ := placeShips_ok_elim heq
    have hids : seatIds room2 = seatIds room := by
      show room2.players.map (fun q => q.id) = _
      rw [hpl]
      exact updatePlayer_ids (fun q => rfl)
    have hlen2 : room2.players.length ≤ 2 := by
      have h2 := congrArg List.length hids
      simp only [seatIds, List.length_map] at h2
      have h3 := hwf.2
      omega
    refine ⟨?_, hlen2⟩
    by_cases hc : room2.players.length = 2 ∧ ∀ q ∈ room2.players, q.ready = true
    · obtain ⟨p0, rest, hps, hturn, hev⟩ := hstart hc
      intro tt htt
      rw [hturn] at htt
      injection htt with htt2
      subst htt2
      rw [seatIds, hps]
      exact List.mem_map_of_mem _ (List.mem_cons_self _ _)
    · obtain ⟨hturn, hev⟩ := hnot hc
      intro tt htt
      rw [hturn] at htt
      rw [hids]
      exact hwf.1 tt htt

lemma roomWf_fire {room : Room} {sid : String} {t : Target} (hwf : roomWf room) :
    roomWf (fireStep room sid t) := by
  rw [fireStep]
  cases ha : attack room sid t with
  | err m => exact hwf
  | crash r =>
    rcases attack_crash_elim ha with rfl | ⟨pl, hits, hpl, rfl⟩
    · exact hwf
    · refine roomWf_of_same hwf rfl ?_
      show (recordShot room sid hits pl.misses).players.map (fun q => q.id) = _
      rw [recordShot]
      dsimp only
      exact updatePlayer_ids (fun q => rfl)
  | reply p r =>
    obtain ⟨opp, pl2, hturn, ho, hpl, hits, misses, result, shipName, hpay, hroom, -⟩ :=
      attack_reply_elim ha
    subst hroom
    have hids : (recordShot room sid hits misses).players.map (fun q => q.id) =
        seatIds room := by
      rw [recordShot]
      dsimp only
      exact updatePlayer_ids (fun q => rfl)
    constructor
    · intro tt htt
      dsimp only at htt
      by_cases hsunk : allSunk opp.ships hits = true
      · rw [if_pos hsunk] at htt
        show tt ∈ (recordShot room sid hits misses).players.map (fun q => q.id)
        rw [hids]
        exact hwf.1 tt htt
      · rw [if_neg hsunk] at htt
        injection htt with h2
        subst h2
        show opp.id ∈ (recordShot room sid hits misses).players.map (fun q => q.id)
        rw [hids]
        exact List.mem_map_of_mem _ (getOpponent_mem ho)
    · show (recordShot room sid hits misses).players.length ≤ 2
      have h2 := congrArg List.length hids
      simp only [seatIds, List.length_map] at h2
      have h3 := hwf.2
      omega

lemma roomWf_disconnect {room : Room} {sid : String} {room' : Room}
    (hwf : roomWf room) (h : disconnect room sid = some room') : roomWf room' := by
  rw [disconnect] at h
  dsimp only at h
  by_cases hemp : (room.players.filter (fun p => p.id != sid)).isEmpty = true
  · rw [if_pos hemp] at h
    exact Option.noConfusion h
  · rw [if_neg hemp] at h
    injection h with h2
    subst h2
    have hfillen : (room.players.filter (fun p => p.id != sid)).length ≤ 2 :=
      le_trans (List.length_filter_le _ _) hwf.2
  --  turn reassignment analysis
    by_cases hwt : room.turn = some sid
    · rw [if_pos hwt]
      refine ⟨?_, hfillen⟩
      intro tt htt
      dsimp only at htt
      cases hgo : getOpponent room sid with
      | some o =>
        rw [hgo] at htt
        injection htt with htt2
        subst htt2
        -- o is one of the first two players; show it survives the filter
        rw [getOpponent] at hgo
        cases hps : room.players with
        | nil =>
          rw [hps] at hgo
          exact Option.noConfusion hgo
        | cons pa t =>
          cases t with
          | nil =>
            rw [hps] at hgo
            exact Option.noConfusion hgo
          | cons pb t2 =>
            rw [hps] at hgo
            injection hgo with hgo2
            show o.id ∈ ((pa :: pb :: t2).filter (fun p => p.id != sid)).map (fun q => q.id)
            by_cases hpa : pa.id = sid
            · rw [if_pos hpa] at hgo2
              subst hgo2
              -- o = pb; pb must survive or the room would have emptied: with at
              -- most two seats, pb.id = sid would make the filter empty,
              -- contradicting the liveness of the room
              have ht2 : t2 = [] := by
                have hlen := hwf.2
                rw [hps] at hlen
                simp only [List.length_cons] at hlen
                cases t2 with
                | nil => rfl
                | cons c t3 => simp at hlen
              subst ht2
              by_cases hpb : pb.id = sid
              · exfalso
                apply hemp
                rw [hps]
                simp [List.filter_cons, hpa, hpb]
              · simp [List.filter_cons, hpa, hpb]
            · rw [if_neg hpa] at hgo2
              subst hgo2
              simp [List.filter_cons, hpa]
      | none =>
        rw [hgo] at htt
        -- the head of the surviving list takes the turn
        cases hfil : room.players.filter (fun p => p.id != sid) with
        | nil =>
          exfalso
          apply hemp
          rw [hfil]
          rfl
        | cons q qs =>
          rw [hfil] at htt
          injection htt with htt2
          subst htt2
          exact List.mem_map_of_mem _ (List.mem_cons_self _ _)
    · rw [if_neg hwt]
      refine ⟨?_, hfillen⟩
      intro tt htt
      dsimp only at htt
      have hmem := hwf.1 tt htt
      have htne : tt ≠ sid := fun hh => hwt (hh ▸ htt)
      rw [seatIds] at hmem
      obtain ⟨p, hp, hpid⟩ := List.mem_map.mp hmem
      have hsurv : p ∈ room.players.filter (fun q => q.id != sid) :=
        List.mem_filter.mpr ⟨hp, by simp [hpid, htne]⟩
      have hmm : p.id ∈ (room.players.filter (fun q => q.id != sid)).map (fun q => q.id) :=
        List.mem_map_of_mem (fun q => q.id) hsurv
      rw [hpid] at hmm
      exact hmm

lemma roomWf_createRoom (code sid : String) : roomWf (createRoom code sid) := by
  constructor
  · intro tt htt
    exact Option.noConfusion htt
  · show 1 ≤ 2
    omega

lemma roomWf_reachable {room : Room} (h : Reachable room) : roomWf room := by
  induction h with
  | init code sid => exact roomWf_createRoom code sid
  | step hr hstep ih =>
    rename_i r e r'
    cases e with
    | join sid =>
      injection hstep with h2
      exact h2 ▸ roomWf_join ih
    | setName sid u =>
      injection hstep with h2
      exact h2 ▸ roomWf_setName ih
    | place sid ships =>
      injection hstep with h2
      exact h2 ▸ roomWf_place ih
    | fire sid t =>
      injection hstep with h2
      exact h2 ▸ roomWf_fire ih
    | chat sid =>
      injection hstep with h2
      exact h2 ▸ ih
    | leave sid => exact roomWf_disconnect ih hstep

/-- C7: in every room reachable from creation the turn pointer is unset or
names a currently seated player, and when the seated turn holder disconnects
while an opponent is present the turn transfers to that opponent. -/
theorem turn_always_seated :
    (∀ room, Reachable room → turnSeated room) ∧
    (∀ room sid opp room', room.turn = some sid → getOpponent room sid = some opp →
      disconnect room sid = some room' → room'.turn = some opp.id) := by
  constructor
  · exact fun room hr => (roomWf_reachable hr).1
  · intro room sid opp room' hturn hopp h
    rw [disconnect] at h
    dsimp only at h
    by_cases hemp : (room.players.filter (fun p => p.id != sid)).isEmpty = true
    · rw [if_pos hemp] at h
      exact Option.noConfusion h
    · rw [if_neg hemp] at h
      injection h with h2
      subst h2
      rw [if_pos hturn, hopp]

/-- C7 witness: the freshly created room has no turn set, and in the
concrete started match `R3` the turn holder `"A"` disconnecting hands the
turn to `"B"`. -/
theorem turn_always_seated_witness :
    turnSeated (createRoom "123456" "A") ∧
    R3.turn = some "A" ∧ pB3.id = "B" ∧
    ((disconnect R3 "A").getD R3).turn = some pB3.id :=
  ⟨turn_always_seated.1 _ (Reachable.init "123456" "A"), rfl, rfl,
   turn_always_seated.2 R3 "A" pB3 ((disconnect R3 "A").getD R3) rfl rfl rfl⟩

end Battleship
